import Mathlib

/-!
Verification of the `nlsh` natural-language shell against its source
(`src/main.rs`).  Strings handled by the credential store and the shell-profile
mirroring are modelled at the character level (`List Char`), so that Rust's
`str::trim`, `str::lines`, `str::split_once` and the `BTreeMap` rewrite loop
can be reasoned about directly.
-/

namespace Nlsh

/-- Character-level model of a Rust string slice. -/
abbrev Str := List Char

/-- Rust `char::is_whitespace`: the Unicode `White_Space` property. -/
def rustIsWhitespace (c : Char) : Bool :=
  let n := c.toNat
  decide ((9 ≤ n ∧ n ≤ 13) ∨ n = 32 ∨ n = 133 ∨ n = 160 ∨ n = 5760 ∨
    (8192 ≤ n ∧ n ≤ 8202) ∨ n = 8232 ∨ n = 8233 ∨ n = 8239 ∨ n = 8287 ∨
    n = 12288)

/-- Model of Rust `str::trim_start`. -/
def trimStart (s : Str) : Str := s.dropWhile rustIsWhitespace

/-- Model of Rust `str::trim_end`. -/
def trimEnd (s : Str) : Str := s.rdropWhile rustIsWhitespace

/-- Model of Rust `str::trim`. -/
def trimStr (s : Str) : Str := trimEnd (trimStart s)

/-- Model of Rust `str::trim` on a Lean `String`. -/
def trimS (s : String) : String := ⟨trimStr s.data⟩

/-- Split a character list at every occurrence of `sep`, keeping empty pieces
(the semantics of Rust `str::split`). -/
def splitOnChar (sep : Char) : Str → List Str
  | [] => [[]]
  | c :: rest =>
    if c = sep then [] :: splitOnChar sep rest
    else
      match splitOnChar sep rest with
      | [] => [[c]]
      | piece :: pieces => (c :: piece) :: pieces

/-- Strip one trailing carriage return, as Rust `str::lines` does on every
`'\n'`-terminated piece. -/
def stripCR (l : Str) : Str := if l.getLast? = some '\r' then l.dropLast else l

/-- Model of Rust `str::lines`: split at `'\n'`; every piece except the final
unterminated one loses one trailing `'\r'`; a final empty piece (from a
trailing newline) is dropped. -/
def rustLines (s : Str) : List Str :=
  let parts := splitOnChar '\n' s
  let last := parts.getLast?.getD []
  parts.dropLast.map stripCR ++ (if last = [] then [] else [last])

/-- Model of Rust `str::split_once`. -/
def splitOnceChar (sep : Char) : Str → Option (Str × Str)
  | [] => none
  | c :: rest =>
    if c = sep then some ([], rest)
    else (splitOnceChar sep rest).map (fun p => (c :: p.1, p.2))

/-- Byte-lexicographic order on strings, as used by Rust's
`BTreeMap<String, String>` iteration order (UTF-8 byte order coincides with
code-point order). -/
def ltStr : Str → Str → Bool
  | [], [] => false
  | [], _ :: _ => true
  | _ :: _, [] => false
  | a :: as, b :: bs => if a = b then ltStr as bs else decide (a.toNat < b.toNat)

/-- The in-memory key/value collection of `write_env_var`, and also the
sequence of `(key, value)` pairs passed to `env::set_var` by `load_env_file`. -/
abbrev EnvMap := List (Str × Str)

/-- Model of `BTreeMap::insert` on a key-sorted association list: replaces an
existing binding, otherwise inserts in order. -/
def btreeInsert (k v : Str) : EnvMap → EnvMap
  | [] => [(k, v)]
  | (k', v') :: rest =>
    if k = k' then (k, v) :: rest
    else if ltStr k k' then (k, v) :: (k', v') :: rest
    else (k', v') :: btreeInsert k v rest

/-- Lookup in an association list (first match; keys are unique in a
`BTreeMap`). -/
def alLookup (k : Str) : EnvMap → Option Str
  | [] => none
  | (k', v) :: rest => if k' = k then some v else alLookup k rest

/-- The value an environment variable holds after a sequence of
`env::set_var` calls: the last binding wins. -/
def lookupLast (k : Str) : EnvMap → Option Str
  | [] => none
  | kv :: rest =>
    match lookupLast k rest with
    | some v => some v
    | none => if kv.1 = k then some kv.2 else none

/-- One line of the re-read loop in `write_env_var`:
`line.split_once('=')` with both sides trimmed. -/
def writeLineEntry (line : Str) : Option (Str × Str) :=
  (splitOnceChar '=' line).map (fun kv => (trimStr kv.1, trimStr kv.2))

/-- The `BTreeMap` that `write_env_var` rebuilds from the existing file
content. -/
def parseEnvContent (ls : List Str) : EnvMap :=
  ls.foldl
    (fun m line =>
      match writeLineEntry line with
      | some kv => btreeInsert kv.1 kv.2 m
      | none => m)
    []

/-- The deterministic rewrite in `write_env_var`: one `KEY=VALUE` line per
entry, each followed by a newline, in map (sorted) order. -/
def renderEnv (m : EnvMap) : Str :=
  (m.map (fun kv => kv.1 ++ '=' :: kv.2 ++ ['\n'])).flatten

/-- Model of `write_env_var` as a transformation of the env-file content
(`none` models an absent file). -/
def write_env_var (content : Option Str) (key value : Str) : Str :=
  let vars :=
    match content with
    | some c => parseEnvContent (rustLines c)
    | none => []
  renderEnv (btreeInsert key value vars)

/-- One line of `load_env_file`: the `(key, value)` pair passed to
`env::set_var`, if the (trimmed) line is non-empty, is no `#` comment, and
contains an `=`. -/
def loadLineEntry (line : Str) : Option (Str × Str) :=
  let trimmed := trimStr line
  if trimmed = [] then none
  else if trimmed.head? = some '#' then none
  else (splitOnceChar '=' trimmed).map (fun kv => (trimStr kv.1, trimStr kv.2))

/-- Model of `load_env_file`: the ordered sequence of `env::set_var` calls it
performs for a given file content. -/
def load_env_pairs (content : Str) : EnvMap :=
  (rustLines content).filterMap loadLineEntry

/-- `format!("export {}=", key)`, the pattern `set_shell_env` filters out. -/
def exportPat (key : Str) : Str := "export ".data ++ key ++ ['=']

/-- `format!("export {}=\"{}\"", key, value)`, the line `set_shell_env`
appends. -/
def exportLine (key value : Str) : Str := exportPat key ++ '\"' :: (value ++ ['\"'])

/-- Model of `set_shell_env` restricted to a single rc file (`none` models an
absent file): keep every line whose `trim_start` does not start with
`export KEY=`, re-terminated with `'\n'`, then append the new export line. -/
def set_shell_env_file (content : Option Str) (key value : Str) : Str :=
  let kept :=
    match content with
    | some c =>
      (((rustLines c).filter
          (fun line => ! (exportPat key).isPrefixOf (trimStart line))).map
        (fun line => line ++ ['\n'])).flatten
    | none => []
  kept ++ exportLine key value ++ ['\n']

/-- The two remote providers. -/
inductive Provider where
  | Gemini
  | Zai
deriving DecidableEq

/-- Model of Rust `str::to_lowercase` restricted to the ASCII case mapping
(`Char.toLower` agrees with Rust on ASCII, which covers every string
`Provider::from_str` can accept). -/
def strToLower (s : String) : String := ⟨s.data.map Char.toLower⟩

/-- Model of `Provider::from_str`. -/
def Provider.from_str (value : String) : Option Provider :=
  let lower := strToLower value
  if lower = "gemini" ∨ lower = "google" then some Provider.Gemini
  else if lower = "zai" ∨ lower = "z.ai" ∨ lower = "z-ai" then some Provider.Zai
  else none

/-- Model of `Provider::env_key`. -/
def Provider.env_key : Provider → String
  | Provider.Gemini => "GEMINI_API_KEY"
  | Provider.Zai => "ZAI_API_KEY"

/-- Model of `Provider::name`. -/
def Provider.name : Provider → String
  | Provider.Gemini => "gemini"
  | Provider.Zai => "zai"

/-- Model of `current_provider`; `env` is the live process environment. -/
def current_provider (env : String → Option String) : Provider :=
  match env "NLSH_PROVIDER" with
  | some value =>
    match Provider.from_str value with
    | some provider => provider
    | none => Provider.Gemini
  | none => Provider.Gemini

/-- The error message produced by `ensure_api_key`. -/
def missing_key_message (key : String) : String :=
  "Missing " ++ key ++ ". Set one via `nlsh --set-api-key`."

/-- Model of `ensure_api_key`. -/
def ensure_api_key (env : String → Option String) (provider : Provider) :
    Except String String :=
  let key := provider.env_key
  match env key with
  | some value =>
    if trimS value = "" then Except.error (missing_key_message key)
    else Except.ok value
  | none => Except.error (missing_key_message key)

/-- A JSON value, modelling `serde_json::Value`. -/
inductive Json where
  | null
  | bool (b : Bool)
  | num (n : Int)
  | str (s : String)
  | arr (elems : List Json)
  | obj (fields : List (String × Json))

/-- `Value::get` with a string key (objects only). -/
def Json.getKey : Json → String → Option Json
  | Json.obj fields, k =>
    match fields.find? (fun f => f.1 == k) with
    | some f => some f.2
    | none => none
  | _, _ => none

/-- `Value::get` with an integer index (arrays only). -/
def Json.getIdx : Json → Nat → Option Json
  | Json.arr elems, i => elems[i]?
  | _, _ => none

/-- `Value::as_str`. -/
def Json.asStr : Json → Option String
  | Json.str s => some s
  | _ => none

/-- The field path `candidates[0].content.parts[0].text` (as a string) that
`gemini_request` extracts. -/
def geminiTextPath (value : Json) : Option String :=
  ((((((value.getKey "candidates").bind (fun c => c.getIdx 0)).bind
    (fun c => c.getKey "content")).bind
    (fun c => c.getKey "parts")).bind
    (fun p => p.getIdx 0)).bind
    (fun p => p.getKey "text")).bind Json.asStr

/-- Response-extraction portion of `gemini_request` (the part after the HTTP
response body has been parsed into JSON). -/
def gemini_extract (value : Json) : Except String String :=
  match geminiTextPath value with
  | some text => Except.ok (trimS text)
  | none => Except.error "Gemini response missing content"

/-- `choice.get("message").and_then(get("content")).and_then(as_str)`. -/
def msgContent (choice : Json) : Option String :=
  ((choice.getKey "message").bind (fun m => m.getKey "content")).bind Json.asStr

/-- `choice.get("text").and_then(as_str)`. -/
def textContent (choice : Json) : Option String :=
  (choice.getKey "text").bind Json.asStr

/-- `choice.get("content").and_then(as_str)`. -/
def contContent (choice : Json) : Option String :=
  (choice.getKey "content").bind Json.asStr

/-- The fallback chain applied to `choices[0]` in `zai_request`. -/
def choiceText (choice : Json) : Option String :=
  ((msgContent choice).orElse
    (fun _ => (textContent choice).orElse (fun _ => contContent choice)))

/-- The full extraction path of `zai_request`. -/
def zaiTextPath (value : Json) : Option String :=
  ((value.getKey "choices").bind (fun c => c.getIdx 0)).bind choiceText

/-- Response-extraction portion of `zai_request`; `status` is the rendered
HTTP status of the response. -/
def zai_extract (value : Json) (status : String) : Except String String :=
  match zaiTextPath value with
  | some text => Except.ok (trimS text)
  | none =>
    Except.error ("z.ai response missing content (status: " ++ status ++ ")")

/-- The fixed text of `build_prompt` before the working directory. -/
def promptHeader : String :=
  "You are a shell command translator. Convert the user's request into a shell command for Linux/zsh.\nCurrent directory: "

/-- The fixed text of `build_prompt` between the working directory and the
user input. -/
def promptRules : String :=
  "\n\nRules:\n- Output ONLY the command, nothing else\n- No explanations, no markdown, no backticks\n- If unclear, make a reasonable assumption\n- Prefer simple, common commands\n\nUser request: "

/-- Model of `build_prompt`. -/
def build_prompt (user_input cwd : String) : String :=
  promptHeader ++ cwd ++ promptRules ++ user_input

/-- `needle` occurs contiguously inside `hay`. -/
def containsStr (hay needle : String) : Prop :=
  ∃ pre post, hay = pre ++ needle ++ post

/-- The process/arguments/stream configuration of a spawned child. -/
structure SpawnSpec where
  program : String
  args : List String
  stdinInherit : Bool
  stdoutInherit : Bool
  stderrInherit : Bool
deriving DecidableEq

/-- The spawn performed by `run_command`: `sh -c <command>` with all three
standard streams inherited. -/
def run_command_spawn (command : String) : SpawnSpec :=
  { program := "sh", args := ["-c", command],
    stdinInherit := true, stdoutInherit := true, stderrInherit := true }

/-- `status.code().unwrap_or(1)`: the exit code `run_command` returns given
the child's wait status (`none` models abnormal termination, e.g. by
signal). -/
def run_command_exit (waitStatus : Option Int) : Int :=
  waitStatus.getD 1

/-- Key codes distinguished by the confirmation loop in `main`. -/
inductive KeyCode where
  | enter
  | esc
  | other
deriving DecidableEq

/-- One result of `event::read()`: a key event, some other event, or an I/O
error. -/
inductive TermEvent where
  | key (code : KeyCode)
  | nonKey
  | readError
deriving DecidableEq

/-- The `loop` in `main`: read events until Enter (`Except.ok (some ())`),
Esc (`Except.ok none`), or a read error (`Except.error ()`); all other
events are ignored.  `none` models a finite stream on which the real loop
would still be blocked. -/
def confirmReadLoop : List TermEvent → Option (Except Unit (Option Unit))
  | [] => none
  | TermEvent.readError :: _ => some (Except.error ())
  | TermEvent.nonKey :: rest => confirmReadLoop rest
  | TermEvent.key KeyCode.enter :: _ => some (Except.ok (some ()))
  | TermEvent.key KeyCode.esc :: _ => some (Except.ok none)
  | TermEvent.key KeyCode.other :: rest => confirmReadLoop rest

/-- How the confirmation phase of `main` returns: the decision (or error),
and whether raw mode is still enabled at that point. -/
structure ConfirmExit where
  outcome : Except Unit (Option Unit)
  rawModeOnReturn : Bool

/-- The confirmation phase of `main` (lines 342-352 of `src/main.rs`):
`enable_raw_mode` runs before the loop; on `Except.ok` the code falls
through to `terminal::disable_raw_mode()`, while `event::read()?` propagates
an error out of `main` before that call is reached, leaving raw mode
enabled. -/
def confirmPhase (events : List TermEvent) : Option ConfirmExit :=
  match confirmReadLoop events with
  | none => none
  | some (Except.error e) => some ⟨Except.error e, true⟩
  | some (Except.ok decision) => some ⟨Except.ok decision, false⟩

/-- Key-sortedness of the association list (the `BTreeMap` invariant). -/
def envSorted (m : EnvMap) : Prop :=
  m.Pairwise (fun x y => ltStr x.1 y.1 = true)

/-- Well-formedness of one stored entry: the key contains no newline and no
`'='` and is trim-fixed; the value contains no newline and is trim-fixed.
Every entry `write_env_var` re-reads from a file satisfies this. -/
def entryWF (kv : Str × Str) : Prop :=
  '\n' ∉ kv.1 ∧ '=' ∉ kv.1 ∧ trimStr kv.1 = kv.1 ∧ '\n' ∉ kv.2 ∧ trimStr kv.2 = kv.2

/-- Well-formed store: sorted with well-formed entries. -/
def envWF (m : EnvMap) : Prop :=
  envSorted m ∧ ∀ kv ∈ m, entryWF kv

/-- The Provider-A response fixture from the specification. -/
def geminiFixture : Json :=
  Json.obj [("candidates", Json.arr [Json.obj [("content",
    Json.obj [("parts", Json.arr [Json.obj [("text", Json.str " ls -la ")]])])]])]

end Nlsh

namespace Nlsh

/-! ### Trim lemmas -/

theorem head?_eq_of_pre {α : Type _} {l₁ l₂ : List α} (h : l₁ <+: l₂)
    (hne : l₁ ≠ []) : l₂.head? = l₁.head? := by
  obtain ⟨t, rfl⟩ := h
  cases l₁ with
  | nil => exact absurd rfl hne
  | cons a l => rfl

theorem trimStart_trimStart (s : Str) : trimStart (trimStart s) = trimStart s :=
  List.dropWhile_idempotent _ _

theorem trimEnd_trimEnd (s : Str) : trimEnd (trimEnd s) = trimEnd s :=
  List.rdropWhile_idempotent _ _

theorem trimStart_sublist (s : Str) : (trimStart s).Sublist s :=
  List.dropWhile_sublist _

theorem trimEnd_sublist (s : Str) : (trimEnd s).Sublist s :=
  (List.rdropWhile_prefix _ _).sublist

theorem trimStr_sublist (s : Str) : (trimStr s).Sublist s :=
  (trimEnd_sublist _).trans (trimStart_sublist _)

theorem not_mem_trimStr {c : Char} {s : Str} (h : c ∉ s) : c ∉ trimStr s :=
  fun hc => h ((trimStr_sublist s).subset hc)

theorem dropWhile_cons_fix {α : Type _} {p : α → Bool} {a : α} {l : List α}
    (h : List.dropWhile p (a :: l) = a :: l) : p a = false := by
  by_contra hpa
  rw [Bool.not_eq_false] at hpa
  rw [List.dropWhile_cons, if_pos hpa] at h
  have hlen := (List.dropWhile_sublist (l := l) p).length_le
  rw [h] at hlen
  simp at hlen

theorem trimStart_trimEnd_of_fix {s : Str} (h : trimStart s = s) :
    trimStart (trimEnd s) = trimEnd s := by
  rcases hq : trimEnd s with _ | ⟨a, t⟩
  · rfl
  · have hpre : trimEnd s <+: s := List.rdropWhile_prefix _ _
    rw [hq] at hpre
    have hh : s.head? = some a := by
      rw [head?_eq_of_pre hpre (by simp)]; rfl
    cases s with
    | nil => cases hh
    | cons b u =>
      have hb : b = a := by simpa using hh
      subst hb
      have hpb : rustIsWhitespace b = false := dropWhile_cons_fix h
      show List.dropWhile rustIsWhitespace (b :: t) = b :: t
      rw [List.dropWhile_cons, if_neg (by simp [hpb])]

theorem trimStart_trimStr (s : Str) : trimStart (trimStr s) = trimStr s :=
  trimStart_trimEnd_of_fix (trimStart_trimStart s)

theorem trimEnd_trimStr (s : Str) : trimEnd (trimStr s) = trimStr s :=
  trimEnd_trimEnd _

theorem trimStr_idem (s : Str) : trimStr (trimStr s) = trimStr s := by
  show trimEnd (trimStart (trimStr s)) = trimStr s
  rw [trimStart_trimStr, trimEnd_trimStr]

theorem dropWhile_rdropWhile_comm {α : Type _} (p : α → Bool) (l : List α) :
    List.dropWhile p (List.rdropWhile p l) = List.rdropWhile p (List.dropWhile p l) := by
  induction l using List.reverseRecOn with
  | nil => rfl
  | append_singleton xs x ih =>
    by_cases hx : p x
    · rw [List.rdropWhile_concat_pos _ _ _ hx, ih, List.dropWhile_append]
      by_cases he : (List.dropWhile p xs).isEmpty
      · rw [if_pos he]
        rw [List.isEmpty_iff] at he
        simp [he, List.dropWhile_cons, hx]
      · rw [if_neg he, List.rdropWhile_concat_pos _ _ _ hx]
    · rw [List.rdropWhile_concat_neg _ _ _ hx, List.dropWhile_append]
      by_cases he : (List.dropWhile p xs).isEmpty
      · rw [if_pos he]
        have hx1 : List.dropWhile p [x] = [x] := by
          simp [List.dropWhile_cons, hx]
        rw [hx1, show ([x] : List α) = [] ++ [x] by rfl,
          List.rdropWhile_concat_neg _ _ _ hx]
      · rw [if_neg he, List.rdropWhile_concat_neg _ _ _ hx]

theorem trimStart_trimEnd_comm (s : Str) :
    trimStart (trimEnd s) = trimEnd (trimStart s) :=
  dropWhile_rdropWhile_comm _ _

theorem trimStr_trimStart (s : Str) : trimStr (trimStart s) = trimStr s := by
  show trimEnd (trimStart (trimStart s)) = trimEnd (trimStart s)
  rw [trimStart_trimStart]

theorem trimStr_trimEnd (s : Str) : trimStr (trimEnd s) = trimStr s := by
  show trimEnd (trimStart (trimEnd s)) = trimEnd (trimStart s)
  rw [trimStart_trimEnd_comm, trimEnd_trimEnd]

theorem dropWhile_append_cons {α : Type _} {p : α → Bool} {c : α}
    (hc : p c = false) (a b : List α) :
    List.dropWhile p (a ++ c :: b) = List.dropWhile p a ++ c :: b := by
  rw [List.dropWhile_append]
  by_cases he : (List.dropWhile p a).isEmpty
  · rw [if_pos he]
    have ha : List.dropWhile p a = [] := by simpa [List.isEmpty_iff] using he
    rw [ha, List.dropWhile_cons, if_neg (by simp [hc])]
    rfl
  · rw [if_neg he]

theorem rdropWhile_append_cons {α : Type _} {p : α → Bool} {c : α}
    (hc : p c = false) (a b : List α) :
    List.rdropWhile p (a ++ c :: b) = a ++ c :: List.rdropWhile p b := by
  have h1 : (a ++ c :: b).reverse = b.reverse ++ c :: a.reverse := by
    simp
  show (List.dropWhile p (a ++ c :: b).reverse).reverse = _
  rw [h1, dropWhile_append_cons hc]
  simp [List.rdropWhile]

theorem trimStr_append_cons {c : Char} (hc : rustIsWhitespace c = false)
    (a b : Str) : trimStr (a ++ c :: b) = trimStart a ++ c :: trimEnd b := by
  show trimEnd (trimStart (a ++ c :: b)) = _
  show List.rdropWhile _ (List.dropWhile _ (a ++ c :: b)) = _
  rw [dropWhile_append_cons hc, rdropWhile_append_cons hc]
  rfl

theorem trimEnd_cons_head? {a : Char} {t : Str} (ha : rustIsWhitespace a = false) :
    (trimEnd (a :: t)).head? = some a := by
  have hne : trimEnd (a :: t) ≠ [] := by
    rw [Ne, trimEnd, List.rdropWhile_eq_nil_iff]
    intro hall
    have := hall a (by simp)
    rw [this] at ha
    cases ha
  have h := head?_eq_of_pre (List.rdropWhile_prefix rustIsWhitespace (a :: t)) hne
  exact h.symm

end Nlsh

namespace Nlsh

/-! ### split_once and split lemmas -/

theorem splitOnceChar_eq_some {sep : Char} : ∀ {s a b : Str},
    splitOnceChar sep s = some (a, b) → s = a ++ sep :: b ∧ sep ∉ a := by
  intro s
  induction s with
  | nil => intro a b h; cases h
  | cons c rest ih =>
    intro a b h
    by_cases hc : c = sep
    · rw [splitOnceChar, if_pos hc] at h
      injection h with h
      obtain ⟨h1, h2⟩ := Prod.mk.injEq .. ▸ h
      subst hc
      constructor
      · rw [← h1, ← h2]; rfl
      · rw [← h1]; simp
    · rw [splitOnceChar, if_neg hc] at h
      cases hsp : splitOnceChar sep rest with
      | none => rw [hsp] at h; cases h
      | some q =>
        rw [hsp] at h
        injection h with h
        obtain ⟨h1, h2⟩ := Prod.mk.injEq .. ▸ h
        obtain ⟨hr, hna⟩ := ih hsp
        constructor
        · rw [← h1, ← h2, List.cons_append, ← hr]
        · rw [← h1]
          intro hm
          rcases List.mem_cons.mp hm with h' | h'
          · exact hc h'.symm
          · exact hna h'

theorem splitOnceChar_append {sep : Char} {a : Str} (ha : sep ∉ a) (b : Str) :
    splitOnceChar sep (a ++ sep :: b) = some (a, b) := by
  induction a with
  | nil => simp [splitOnceChar]
  | cons c a2 ih =>
    have hc : ¬ c = sep := fun h => ha (h ▸ List.mem_cons_self c a2)
    have ha2 : sep ∉ a2 := fun h => ha (List.mem_cons_of_mem _ h)
    rw [List.cons_append, splitOnceChar, if_neg hc, ih ha2]
    rfl

theorem splitOnceChar_eq_none {sep : Char} : ∀ {s : Str},
    splitOnceChar sep s = none ↔ sep ∉ s := by
  intro s
  induction s with
  | nil => simp [splitOnceChar]
  | cons c rest ih =>
    by_cases hc : c = sep
    · rw [splitOnceChar, if_pos hc]
      subst hc
      simp
    · rw [splitOnceChar, if_neg hc, Option.map_eq_none', ih]
      constructor
      · intro h hm
        rcases List.mem_cons.mp hm with h1 | h1
        · exact hc h1.symm
        · exact h h1
      · intro h hm
        exact h (List.mem_cons_of_mem _ hm)

theorem splitOnChar_ne_nil (sep : Char) (s : Str) : splitOnChar sep s ≠ [] := by
  cases s with
  | nil => simp [splitOnChar]
  | cons c rest =>
    rw [splitOnChar]
    by_cases hc : c = sep
    · simp [hc]
    · rw [if_neg hc]
      cases h : splitOnChar sep rest <;> simp

theorem splitOnChar_append_sep {sep : Char} {a : Str} (ha : sep ∉ a) (r : Str) :
    splitOnChar sep (a ++ sep :: r) = a :: splitOnChar sep r := by
  induction a with
  | nil => simp [splitOnChar]
  | cons c a2 ih =>
    have hc : ¬ c = sep := fun h => ha (h ▸ List.mem_cons_self c a2)
    have ha2 : sep ∉ a2 := fun h => ha (List.mem_cons_of_mem _ h)
    rw [List.cons_append, splitOnChar, if_neg hc, ih ha2]

theorem mem_splitOnChar_not_sep {sep : Char} : ∀ {s piece : Str},
    piece ∈ splitOnChar sep s → sep ∉ piece := by
  intro s
  induction s with
  | nil =>
    intro piece h
    simp [splitOnChar] at h
    simp [h]
  | cons c rest ih =>
    intro piece h
    rw [splitOnChar] at h
    by_cases hc : c = sep
    · rw [if_pos hc] at h
      rcases List.mem_cons.mp h with h' | h'
      · simp [h']
      · exact ih h'
    · rw [if_neg hc] at h
      cases hsp : splitOnChar sep rest with
      | nil => exact absurd hsp (splitOnChar_ne_nil sep rest)
      | cons q qs =>
        rw [hsp] at h
        rcases List.mem_cons.mp h with h' | h'
        · subst h'
          intro hm
          rcases List.mem_cons.mp hm with h2 | h2
          · exact hc h2.symm
          · exact ih (hsp ▸ List.mem_cons_self q qs) h2
        · exact ih (hsp ▸ List.mem_cons_of_mem q h')

theorem mem_splitOnChar_subset {sep : Char} : ∀ {s piece : Str},
    piece ∈ splitOnChar sep s → ∀ {x : Char}, x ∈ piece → x ∈ s := by
  intro s
  induction s with
  | nil =>
    intro piece h x hx
    simp [splitOnChar] at h
    rw [h] at hx
    cases hx
  | cons c rest ih =>
    intro piece h x hx
    rw [splitOnChar] at h
    by_cases hc : c = sep
    · rw [if_pos hc] at h
      rcases List.mem_cons.mp h with h' | h'
      · rw [h'] at hx; cases hx
      · exact List.mem_cons_of_mem _ (ih h' hx)
    · rw [if_neg hc] at h
      cases hsp : splitOnChar sep rest with
      | nil => exact absurd hsp (splitOnChar_ne_nil sep rest)
      | cons q qs =>
        rw [hsp] at h
        rcases List.mem_cons.mp h with h' | h'
        · subst h'
          rcases List.mem_cons.mp hx with h2 | h2
          · exact h2 ▸ List.mem_cons_self c rest
          · exact List.mem_cons_of_mem _ (ih (hsp ▸ List.mem_cons_self q qs) h2)
        · exact List.mem_cons_of_mem _ (ih (hsp ▸ List.mem_cons_of_mem q h') hx)

end Nlsh

namespace Nlsh

/-! ### rustLines lemmas -/

theorem splitOnChar_flatten {sep : Char} : ∀ {ls : List Str},
    (∀ l ∈ ls, sep ∉ l) →
    splitOnChar sep ((ls.map (fun l => l ++ [sep])).flatten) = ls ++ [[]] := by
  intro ls
  induction ls with
  | nil => intro _; rfl
  | cons l ls ih =>
    intro h
    rw [List.map_cons, List.flatten_cons, List.append_assoc, List.singleton_append,
      splitOnChar_append_sep (h l (List.mem_cons_self l ls)),
      ih (fun l2 h2 => h l2 (List.mem_cons_of_mem l h2))]
    rfl

theorem stripCR_eq_self {l : Str} (h : l.getLast? ≠ some '\r') : stripCR l = l := by
  rw [stripCR, if_neg h]

theorem rustLines_flatten {ls : List Str} (h : ∀ l ∈ ls, '\n' ∉ l) :
    rustLines ((ls.map (fun l => l ++ ['\n'])).flatten) = ls.map stripCR := by
  rw [rustLines, splitOnChar_flatten h, List.dropLast_concat, List.getLast?_concat]
  simp

theorem trimStart_of_trimmed {s : Str} (h : trimStr s = s) : trimStart s = s := by
  conv_lhs => rw [← h]
  rw [trimStart_trimStr, h]

theorem trimEnd_of_trimmed {s : Str} (h : trimStr s = s) : trimEnd s = s := by
  conv_lhs => rw [← h]
  rw [trimEnd_trimStr, h]

theorem trimmed_concat_last {v : Str} {c : Char} (h : trimEnd (v ++ [c]) = v ++ [c]) :
    rustIsWhitespace c = false := by
  have h2 := List.rdropWhile_eq_self_iff.mp h (by simp)
  rwa [List.getLast_concat, Bool.not_eq_true] at h2

theorem entry_line_getLast {k v : Str} (hv : trimStr v = v) :
    (k ++ '=' :: v).getLast? ≠ some '\r' := by
  induction v using List.reverseRecOn with
  | nil =>
    rw [show k ++ ['='] = k ++ ['='] from rfl]
    rw [List.getLast?_concat]
    intro h
    cases h
  | append_singleton v2 c _ =>
    have hc : rustIsWhitespace c = false :=
      trimmed_concat_last (trimEnd_of_trimmed hv)
    have : k ++ '=' :: (v2 ++ [c]) = (k ++ '=' :: v2) ++ [c] := by simp
    rw [this, List.getLast?_concat]
    intro h
    injection h with h
    subst h
    cases hc

theorem rustLines_renderEnv {m : EnvMap}
    (h : ∀ kv ∈ m, '\n' ∉ kv.1 ∧ '\n' ∉ kv.2 ∧ trimStr kv.2 = kv.2) :
    rustLines (renderEnv m) = m.map (fun kv => kv.1 ++ '=' :: kv.2) := by
  have h1 : renderEnv m
      = ((m.map (fun kv => kv.1 ++ '=' :: kv.2)).map (fun l => l ++ ['\n'])).flatten := by
    rw [renderEnv, List.map_map]
    apply congrArg List.flatten
    apply List.map_congr_left
    intro kv _
    simp
  rw [h1, rustLines_flatten, List.map_map]
  · apply List.map_congr_left
    intro kv hkv
    have := h kv hkv
    exact stripCR_eq_self (entry_line_getLast this.2.2)
  · intro l hl
    rcases List.mem_map.mp hl with ⟨kv, hkv, rfl⟩
    obtain ⟨h1, h2, _⟩ := h kv hkv
    intro hmem
    rcases List.mem_append.mp hmem with hm | hm
    · exact h1 hm
    · rcases List.mem_cons.mp hm with hm2 | hm2
      · cases hm2
      · exact h2 hm2

theorem mem_of_getLast?_eq {α : Type _} {l : List α} {a : α}
    (h : l.getLast? = some a) : a ∈ l := by
  induction l using List.reverseRecOn with
  | nil => cases h
  | append_singleton l2 b _ =>
    rw [List.getLast?_concat] at h
    injection h with h
    subst h
    simp

theorem mem_rustLines_exists_piece {s l : Str} (h : l ∈ rustLines s) :
    ∃ piece ∈ splitOnChar '\n' s, ∀ {x : Char}, x ∈ l → x ∈ piece := by
  rw [rustLines] at h
  rcases List.mem_append.mp h with hm | hm
  · rcases List.mem_map.mp hm with ⟨piece, hp, rfl⟩
    refine ⟨piece, (List.dropLast_sublist _).subset hp, ?_⟩
    intro x hx
    rw [stripCR] at hx
    split at hx
    · exact (List.dropLast_sublist piece).subset hx
    · exact hx
  · by_cases hlast : (splitOnChar '\n' s).getLast?.getD [] = []
    · rw [if_pos hlast] at hm
      cases hm
    · rw [if_neg hlast] at hm
      rcases List.mem_cons.mp hm with hm2 | hm2
      · subst hm2
        rcases hg : (splitOnChar '\n' s).getLast? with _ | piece
        · rw [hg] at hlast
          exact absurd rfl hlast
        · refine ⟨piece, mem_of_getLast?_eq hg, ?_⟩
          intro x hx
          simpa using hx
      · cases hm2

theorem mem_rustLines_no_newline {s l : Str} (h : l ∈ rustLines s) : '\n' ∉ l := by
  obtain ⟨piece, hp, hsub⟩ := mem_rustLines_exists_piece h
  intro hx
  exact mem_splitOnChar_not_sep hp (hsub hx)

theorem mem_rustLines_mem {s l : Str} (h : l ∈ rustLines s) {x : Char}
    (hx : x ∈ l) : x ∈ s := by
  obtain ⟨piece, hp, hsub⟩ := mem_rustLines_exists_piece h
  exact mem_splitOnChar_subset hp (hsub hx)

end Nlsh

namespace Nlsh

/-! ### Order and BTreeMap lemmas -/

theorem charToNat_inj {a b : Char} (h : a.toNat = b.toNat) : a = b := by
  have h2 := congrArg Char.ofNat h
  rwa [Char.ofNat_toNat, Char.ofNat_toNat] at h2

theorem ltStr_irrefl : ∀ s : Str, ltStr s s = false
  | [] => rfl
  | c :: rest => by
    simp only [ltStr, if_pos rfl]
    exact ltStr_irrefl rest

theorem ltStr_asymm : ∀ {a b : Str}, ltStr a b = true → ltStr b a = false := by
  intro a
  induction a with
  | nil =>
    intro b h
    cases b with
    | nil => simp [ltStr] at h
    | cons d bs => rfl
  | cons c as ih =>
    intro b h
    cases b with
    | nil => simp [ltStr] at h
    | cons d bs =>
      by_cases hcd : c = d
      · subst hcd
        simp only [ltStr, if_pos rfl] at h ⊢
        exact ih h
      · simp only [ltStr, if_neg hcd] at h
        have hlt := of_decide_eq_true h
        simp only [ltStr, if_neg (fun hdc : d = c => hcd hdc.symm)]
        exact decide_eq_false (by omega)

theorem ltStr_total : ∀ {a b : Str}, a ≠ b → ltStr a b = false → ltStr b a = true := by
  intro a
  induction a with
  | nil =>
    intro b hne h
    cases b with
    | nil => exact absurd rfl hne
    | cons d bs => simp [ltStr] at h
  | cons c as ih =>
    intro b hne h
    cases b with
    | nil => rfl
    | cons d bs =>
      by_cases hcd : c = d
      · subst hcd
        simp only [ltStr, if_pos rfl] at h ⊢
        exact ih (fun hab => hne (by rw [hab])) h
      · simp only [ltStr, if_neg hcd] at h
        have h2 : ¬ (c.toNat < d.toNat) := by simpa using h
        simp only [ltStr, if_neg (fun hdc : d = c => hcd hdc.symm)]
        apply decide_eq_true
        have hne2 : c.toNat ≠ d.toNat := fun he => hcd (charToNat_inj he)
        omega

theorem ltStr_trans : ∀ {a b c : Str}, ltStr a b = true → ltStr b c = true →
    ltStr a c = true := by
  intro a
  induction a with
  | nil =>
    intro b c h1 h2
    cases b with
    | nil => simp [ltStr] at h1
    | cons y bs =>
      cases c with
      | nil => simp [ltStr] at h2
      | cons z cs => rfl
  | cons x as ih =>
    intro b c h1 h2
    cases b with
    | nil => simp [ltStr] at h1
    | cons y bs =>
      cases c with
      | nil => simp [ltStr] at h2
      | cons z cs =>
        by_cases hxy : x = y
        · subst hxy
          simp only [ltStr, if_pos rfl] at h1
          by_cases hyz : x = z
          · subst hyz
            simp only [ltStr, if_pos rfl] at h2 ⊢
            exact ih h1 h2
          · simp only [ltStr, if_neg hyz] at h2 ⊢
            exact h2
        · simp only [ltStr, if_neg hxy] at h1
          by_cases hyz : y = z
          · subst hyz
            simp only [ltStr, if_neg hxy]
            exact h1
          · simp only [ltStr, if_neg hyz] at h2
            have g1 := of_decide_eq_true h1
            have g2 := of_decide_eq_true h2
            by_cases hxz : x = z
            · subst hxz
              omega
            · simp only [ltStr, if_neg hxz]
              exact decide_eq_true (by omega)

theorem ltStr_ne {a b : Str} (h : ltStr a b = true) : a ≠ b := by
  intro he
  subst he
  rw [ltStr_irrefl a] at h
  cases h

theorem alLookup_insert_self (k v : Str) : ∀ m : EnvMap,
    alLookup k (btreeInsert k v m) = some v
  | [] => by simp [btreeInsert, alLookup]
  | (k2, v2) :: rest => by
    by_cases h : k = k2
    · simp only [btreeInsert, if_pos h]
      simp [alLookup]
    · simp only [btreeInsert, if_neg h]
      by_cases h2 : ltStr k k2
      · rw [if_pos h2]
        simp [alLookup]
      · rw [if_neg h2]
        simp only [alLookup, if_neg (fun he : k2 = k => h he.symm)]
        exact alLookup_insert_self k v rest

theorem alLookup_insert_other {k k0 : Str} (hne : k0 ≠ k) (v : Str) :
    ∀ m : EnvMap, alLookup k0 (btreeInsert k v m) = alLookup k0 m
  | [] => by
    have h : ¬ k = k0 := fun he => hne he.symm
    simp [btreeInsert, alLookup, h]
  | (k2, v2) :: rest => by
    have hkk0 : ¬ k = k0 := fun he => hne he.symm
    by_cases h : k = k2
    · subst h
      have hb : btreeInsert k v ((k, v2) :: rest) = (k, v) :: rest := by
        simp [btreeInsert]
      rw [hb]
      simp only [alLookup, if_neg hkk0]
    · simp only [btreeInsert, if_neg h]
      by_cases h2 : ltStr k k2
      · rw [if_pos h2]
        simp only [alLookup, if_neg hkk0]
      · rw [if_neg h2]
        simp only [alLookup]
        by_cases h3 : k2 = k0
        · rw [if_pos h3, if_pos h3]
        · rw [if_neg h3, if_neg h3]
          exact alLookup_insert_other hne v rest

theorem mem_btreeInsert {k v : Str} : ∀ {m : EnvMap} {kv : Str × Str},
    kv ∈ btreeInsert k v m → kv = (k, v) ∨ kv ∈ m := by
  intro m
  induction m with
  | nil =>
    intro kv h
    simp [btreeInsert] at h
    exact Or.inl h
  | cons kv2 rest ih =>
    obtain ⟨k2, v2⟩ := kv2
    intro kv h
    by_cases he : k = k2
    · simp only [btreeInsert, if_pos he] at h
      rcases List.mem_cons.mp h with h2 | h2
      · exact Or.inl h2
      · exact Or.inr (List.mem_cons_of_mem _ h2)
    · simp only [btreeInsert, if_neg he] at h
      by_cases h2 : ltStr k k2
      · rw [if_pos h2] at h
        rcases List.mem_cons.mp h with h3 | h3
        · exact Or.inl h3
        · exact Or.inr h3
      · rw [if_neg h2] at h
        rcases List.mem_cons.mp h with h3 | h3
        · exact Or.inr (h3 ▸ List.mem_cons_self _ _)
        · rcases ih h3 with h4 | h4
          · exact Or.inl h4
          · exact Or.inr (List.mem_cons_of_mem _ h4)

theorem btreeInsert_sorted {k v : Str} : ∀ {m : EnvMap}, envSorted m →
    envSorted (btreeInsert k v m) := by
  intro m
  induction m with
  | nil =>
    intro _
    simp [btreeInsert, envSorted]
  | cons kv2 rest ih =>
    obtain ⟨k2, v2⟩ := kv2
    intro h
    rw [envSorted, List.pairwise_cons] at h
    obtain ⟨hrel, htail⟩ := h
    by_cases he : k = k2
    · subst he
      have hb : btreeInsert k v ((k, v2) :: rest) = (k, v) :: rest := by
        simp [btreeInsert]
      rw [hb, envSorted, List.pairwise_cons]
      exact ⟨hrel, htail⟩
    · simp only [btreeInsert, if_neg he]
      by_cases h2 : ltStr k k2
      · rw [if_pos h2]
        rw [envSorted, List.pairwise_cons]
        constructor
        · intro x hx
          rcases List.mem_cons.mp hx with h3 | h3
          · rw [h3]
            exact h2
          · exact ltStr_trans h2 (hrel x h3)
        · exact List.pairwise_cons.mpr ⟨hrel, htail⟩
      · rw [if_neg h2]
        rw [envSorted, List.pairwise_cons]
        constructor
        · intro x hx
          rcases mem_btreeInsert hx with h3 | h3
          · rw [h3]
            show ltStr k2 k = true
            exact ltStr_total he (by simpa using h2)
          · exact hrel x h3
        · exact ih htail

theorem btreeInsert_append {k v : Str} : ∀ {m : EnvMap},
    (∀ kv ∈ m, ltStr kv.1 k = true) → btreeInsert k v m = m ++ [(k, v)] := by
  intro m
  induction m with
  | nil => intro _; rfl
  | cons kv2 rest ih =>
    obtain ⟨k2, v2⟩ := kv2
    intro h
    have hlt : ltStr k2 k = true := h (k2, v2) (List.mem_cons_self _ _)
    have hne : ¬ k = k2 := fun he => by
      rw [he] at hlt
      rw [ltStr_irrefl k2] at hlt
      cases hlt
    have hnlt : ¬ ltStr k k2 = true := by
      rw [ltStr_asymm hlt]
      simp
    simp only [btreeInsert, if_neg hne, if_neg hnlt]
    rw [ih (fun kv hkv => h kv (List.mem_cons_of_mem _ hkv))]
    rfl

theorem foldl_insert_sorted : ∀ {m acc : EnvMap}, envSorted (acc ++ m) →
    m.foldl (fun a kv => btreeInsert kv.1 kv.2 a) acc = acc ++ m := by
  intro m
  induction m with
  | nil =>
    intro acc _
    simp
  | cons kv m2 ih =>
    intro acc h
    rw [List.foldl_cons]
    have hall : ∀ x ∈ acc, ltStr x.1 kv.1 = true := by
      intro x hx
      rw [envSorted, List.pairwise_append] at h
      exact h.2.2 x hx kv (List.mem_cons_self _ _)
    rw [btreeInsert_append hall]
    have h2 : envSorted ((acc ++ [kv]) ++ m2) := by
      rw [List.append_assoc, List.singleton_append]
      exact h
    rw [ih h2, List.append_assoc, List.singleton_append]

end Nlsh

namespace Nlsh

/-! ### parse / render round trip -/

theorem parse_fold_mem : ∀ {ls : List Str} {acc : EnvMap} {kv : Str × Str},
    kv ∈ ls.foldl
      (fun m line =>
        match writeLineEntry line with
        | some kv2 => btreeInsert kv2.1 kv2.2 m
        | none => m) acc →
    kv ∈ acc ∨ ∃ line ∈ ls, writeLineEntry line = some kv := by
  intro ls
  induction ls with
  | nil =>
    intro acc kv h
    exact Or.inl h
  | cons l ls ih =>
    intro acc kv h
    rw [List.foldl_cons] at h
    rcases ih h with h2 | h2
    · cases hw : writeLineEntry l with
      | none =>
        rw [hw] at h2
        exact Or.inl h2
      | some kv2 =>
        rw [hw] at h2
        rcases mem_btreeInsert h2 with h3 | h3
        · refine Or.inr ⟨l, List.mem_cons_self _ _, ?_⟩
          rw [hw, h3]
        · exact Or.inl h3
    · obtain ⟨line, hm, hwl⟩ := h2
      exact Or.inr ⟨line, List.mem_cons_of_mem _ hm, hwl⟩

theorem parse_fold_sorted : ∀ {ls : List Str} {acc : EnvMap}, envSorted acc →
    envSorted (ls.foldl
      (fun m line =>
        match writeLineEntry line with
        | some kv2 => btreeInsert kv2.1 kv2.2 m
        | none => m) acc) := by
  intro ls
  induction ls with
  | nil => intro acc h; exact h
  | cons l ls ih =>
    intro acc h
    rw [List.foldl_cons]
    apply ih
    cases hw : writeLineEntry l with
    | none => exact h
    | some kv2 => exact btreeInsert_sorted h

theorem writeLineEntry_WF {line : Str} {kv : Str × Str} (hnl : '\n' ∉ line)
    (h : writeLineEntry line = some kv) : entryWF kv := by
  rw [writeLineEntry] at h
  cases hsp : splitOnceChar '=' line with
  | none => rw [hsp] at h; cases h
  | some p =>
    obtain ⟨a, b⟩ := p
    rw [hsp] at h
    injection h with h
    obtain ⟨hline, hna⟩ := splitOnceChar_eq_some hsp
    have hma : ∀ x ∈ a, x ∈ line := by
      intro x hx
      rw [hline]
      exact List.mem_append.mpr (Or.inl hx)
    have hmb : ∀ x ∈ b, x ∈ line := by
      intro x hx
      rw [hline]
      exact List.mem_append.mpr (Or.inr (List.mem_cons_of_mem _ hx))
    rw [← h]
    refine ⟨?_, ?_, trimStr_idem a, ?_, trimStr_idem b⟩
    · exact not_mem_trimStr (fun hx => hnl (hma _ hx))
    · exact not_mem_trimStr hna
    · exact not_mem_trimStr (fun hx => hnl (hmb _ hx))

theorem parseEnvContent_WF (s : Str) : envWF (parseEnvContent (rustLines s)) := by
  constructor
  · rw [parseEnvContent]
    exact parse_fold_sorted List.Pairwise.nil
  · intro kv h
    rw [parseEnvContent] at h
    rcases parse_fold_mem h with h2 | h2
    · cases h2
    · obtain ⟨line, hm, hw⟩ := h2
      exact writeLineEntry_WF (mem_rustLines_no_newline hm) hw

theorem writeLineEntry_entry {kv : Str × Str} (h1 : '=' ∉ kv.1)
    (h2 : trimStr kv.1 = kv.1) (h3 : trimStr kv.2 = kv.2) :
    writeLineEntry (kv.1 ++ '=' :: kv.2) = some kv := by
  rw [writeLineEntry, splitOnceChar_append h1]
  show some (trimStr kv.1, trimStr kv.2) = some kv
  rw [h2, h3]

theorem parseEnvContent_render {m : EnvMap} (h : envWF m) :
    parseEnvContent (rustLines (renderEnv m)) = m := by
  obtain ⟨hs, he⟩ := h
  rw [rustLines_renderEnv
    (fun kv hkv => ⟨(he kv hkv).1, (he kv hkv).2.2.2.1, (he kv hkv).2.2.2.2⟩)]
  rw [parseEnvContent, List.foldl_map]
  have hext : List.foldl
      (fun x kv =>
        match writeLineEntry (kv.1 ++ '=' :: kv.2) with
        | some kv2 => btreeInsert kv2.1 kv2.2 x
        | none => x) ([] : EnvMap) m
      = List.foldl (fun a kv => btreeInsert kv.1 kv.2 a) ([] : EnvMap) m := by
    apply List.foldl_ext
    intro acc kv hkv
    rw [writeLineEntry_entry (he kv hkv).2.1 (he kv hkv).2.2.1 (he kv hkv).2.2.2.2]
  rw [hext]
  exact foldl_insert_sorted (by simpa using hs)

end Nlsh

namespace Nlsh

/-! ### load / write correspondence -/

theorem trimline_head {a b : Str} :
    (trimStart a ++ '=' :: trimEnd b).head? = some '#' ↔
    (trimStr a).head? = some '#' := by
  cases hu : trimStart a with
  | nil =>
    constructor
    · intro h
      simp at h
    · intro h
      rw [trimStr, hu, show trimEnd ([] : Str) = [] from rfl] at h
      cases h
  | cons c t =>
    have hfix : List.dropWhile rustIsWhitespace (c :: t) = c :: t := by
      rw [← hu]
      exact trimStart_trimStart a
    have hc := dropWhile_cons_fix hfix
    rw [show trimStr a = trimEnd (c :: t) by rw [trimStr, hu],
      trimEnd_cons_head? hc, List.cons_append]
    simp

theorem loadLine_vs_writeLine (line : Str) :
    loadLineEntry line =
      match writeLineEntry line with
      | some kv => if kv.1.head? = some '#' then none else some kv
      | none => none := by
  cases hsp : splitOnceChar '=' line with
  | none =>
    have hw : writeLineEntry line = none := by
      rw [writeLineEntry, hsp]
      rfl
    rw [hw]
    have hn : '=' ∉ line := splitOnceChar_eq_none.mp hsp
    have h0 : splitOnceChar '=' (trimStr line) = none :=
      splitOnceChar_eq_none.mpr (not_mem_trimStr hn)
    by_cases h1 : trimStr line = []
    · simp [loadLineEntry, h1]
    · by_cases h2 : (trimStr line).head? = some '#'
      · simp [loadLineEntry, h1, h2]
      · simp [loadLineEntry, h1, h2, h0]
  | some p =>
    obtain ⟨a, b⟩ := p
    have hw : writeLineEntry line = some (trimStr a, trimStr b) := by
      rw [writeLineEntry, hsp]
      rfl
    rw [hw]
    obtain ⟨hline, hna⟩ := splitOnceChar_eq_some hsp
    subst hline
    have heq : rustIsWhitespace '=' = false := by decide
    have htr : trimStr (a ++ '=' :: b) = trimStart a ++ '=' :: trimEnd b :=
      trimStr_append_cons heq a b
    have hne2 : trimStr (a ++ '=' :: b) ≠ [] := by
      rw [htr]
      simp
    have hsp2 : splitOnceChar '=' (trimStr (a ++ '=' :: b))
        = some (trimStart a, trimEnd b) := by
      rw [htr]
      exact splitOnceChar_append (fun hm => hna ((trimStart_sublist a).subset hm)) _
    show loadLineEntry (a ++ '=' :: b)
      = if (trimStr a).head? = some '#' then none else some (trimStr a, trimStr b)
    by_cases hh : (trimStr a).head? = some '#'
    · rw [if_pos hh]
      have hlh : (trimStr (a ++ '=' :: b)).head? = some '#' := by
        rw [htr]
        exact trimline_head.mpr hh
      simp [loadLineEntry, hne2, hlh]
    · rw [if_neg hh]
      have hlh : ¬ (trimStr (a ++ '=' :: b)).head? = some '#' := by
        rw [htr]
        intro hx
        exact hh (trimline_head.mp hx)
      have hl : loadLineEntry (a ++ '=' :: b)
          = some (trimStr (trimStart a), trimStr (trimEnd b)) := by
        simp [loadLineEntry, hne2, hlh, hsp2]
      rw [hl, trimStr_trimStart, trimStr_trimEnd]

theorem alLookup_fold_lines : ∀ (ls : List Str) (acc : EnvMap) (k : Str),
    alLookup k (ls.foldl
      (fun m line =>
        match writeLineEntry line with
        | some kv2 => btreeInsert kv2.1 kv2.2 m
        | none => m) acc)
    = (lookupLast k (ls.filterMap writeLineEntry)).or (alLookup k acc) := by
  intro ls
  induction ls with
  | nil =>
    intro acc k
    rfl
  | cons l ls ih =>
    intro acc k
    rw [List.foldl_cons, List.filterMap_cons]
    cases hw : writeLineEntry l with
    | none => exact ih acc k
    | some kv2 =>
      rw [ih]
      cases hll : lookupLast k (ls.filterMap writeLineEntry) with
      | some v =>
        rw [show lookupLast k (kv2 :: List.filterMap writeLineEntry ls) = some v by
          rw [lookupLast, hll]]
        rfl
      | none =>
        rw [show lookupLast k (kv2 :: List.filterMap writeLineEntry ls)
            = if kv2.1 = k then some kv2.2 else none by rw [lookupLast, hll]]
        by_cases hk : kv2.1 = k
        · rw [if_pos hk, ← hk]
          rw [show (none : Option Str).or (alLookup kv2.1 (btreeInsert kv2.1 kv2.2 acc))
              = alLookup kv2.1 (btreeInsert kv2.1 kv2.2 acc) from rfl]
          rw [show ((some kv2.2 : Option Str)).or (alLookup kv2.1 acc) = some kv2.2 from rfl]
          exact alLookup_insert_self kv2.1 kv2.2 acc
        · rw [if_neg hk]
          rw [show (none : Option Str).or (alLookup k (btreeInsert kv2.1 kv2.2 acc))
              = alLookup k (btreeInsert kv2.1 kv2.2 acc) from rfl]
          rw [show (none : Option Str).or (alLookup k acc) = alLookup k acc from rfl]
          exact alLookup_insert_other (fun he => hk he.symm) kv2.2 acc

theorem alLookup_parseEnvContent (ls : List Str) (k : Str) :
    alLookup k (parseEnvContent ls) = lookupLast k (ls.filterMap writeLineEntry) := by
  rw [parseEnvContent, alLookup_fold_lines]
  cases lookupLast k (ls.filterMap writeLineEntry) <;> rfl

theorem lookupLast_filterMap_load_write {k : Str} (hk : k.head? ≠ some '#') :
    ∀ ls : List Str,
    lookupLast k (ls.filterMap loadLineEntry)
      = lookupLast k (ls.filterMap writeLineEntry) := by
  intro ls
  induction ls with
  | nil => rfl
  | cons l ls ih =>
    cases hw : writeLineEntry l with
    | none =>
      have hload : loadLineEntry l = none := by
        have h0 := loadLine_vs_writeLine l
        rw [hw] at h0
        exact h0
      rw [List.filterMap_cons_none hload, List.filterMap_cons_none hw]
      exact ih
    | some kv =>
      have h0 := loadLine_vs_writeLine l
      rw [hw] at h0
      have h1 : loadLineEntry l
          = if kv.1.head? = some '#' then none else some kv := h0
      by_cases hh : kv.1.head? = some '#'
      · rw [if_pos hh] at h1
        rw [List.filterMap_cons_none h1, List.filterMap_cons_some hw, ih]
        rw [show lookupLast k (kv :: List.filterMap writeLineEntry ls)
            = match lookupLast k (List.filterMap writeLineEntry ls) with
              | some v => some v
              | none => if kv.1 = k then some kv.2 else none from rfl]
        have hne : ¬ kv.1 = k := by
          intro he
          rw [he] at hh
          exact hk hh
        cases hll : lookupLast k (List.filterMap writeLineEntry ls) with
        | some v => rfl
        | none => rw [if_neg hne]
      · rw [if_neg hh] at h1
        rw [List.filterMap_cons_some h1, List.filterMap_cons_some hw,
          lookupLast, lookupLast, ih]

theorem lookupLast_eq_none {k : Str} : ∀ {ps : EnvMap},
    (∀ kv ∈ ps, kv.1 ≠ k) → lookupLast k ps = none := by
  intro ps
  induction ps with
  | nil => intro _; rfl
  | cons kv rest ih =>
    intro h
    rw [lookupLast, ih (fun x hx => h x (List.mem_cons_of_mem _ hx))]
    rw [if_neg (h kv (List.mem_cons_self _ _))]

theorem load_no_hash {s : Str} {kv : Str × Str} (h : kv ∈ load_env_pairs s) :
    kv.1.head? ≠ some '#' := by
  rw [load_env_pairs] at h
  rcases List.mem_filterMap.mp h with ⟨line, _, hl⟩
  have h0 := loadLine_vs_writeLine line
  cases hw : writeLineEntry line with
  | none =>
    rw [hw] at h0
    have h1 : loadLineEntry line = none := h0
    rw [h1] at hl
    cases hl
  | some kv2 =>
    rw [hw] at h0
    have h1 : loadLineEntry line
        = if kv2.1.head? = some '#' then none else some kv2 := h0
    by_cases hh : kv2.1.head? = some '#'
    · rw [if_pos hh] at h1
      rw [h1] at hl
      cases hl
    · rw [if_neg hh] at h1
      rw [h1] at hl
      injection hl with hl
      rw [← hl]
      exact hh

theorem lookupLast_load_eq_parse {k : Str} (hk : k.head? ≠ some '#') (s : Str) :
    lookupLast k (load_env_pairs s) = alLookup k (parseEnvContent (rustLines s)) := by
  rw [load_env_pairs, lookupLast_filterMap_load_write hk, alLookup_parseEnvContent]

theorem lookupLast_load_hash {k : Str} (hk : k.head? = some '#') (s : Str) :
    lookupLast k (load_env_pairs s) = none :=
  lookupLast_eq_none (fun _ hkv he => load_no_hash hkv (he ▸ hk))

theorem lookupLast_isSome_of_mem {k : Str} : ∀ {ps : EnvMap} {kv : Str × Str},
    kv ∈ ps → kv.1 = k → ∃ v, lookupLast k ps = some v := by
  intro ps
  induction ps with
  | nil =>
    intro _ h
    cases h
  | cons x rest ih =>
    intro kv h hk
    rcases List.mem_cons.mp h with h2 | h2
    · cases hll : lookupLast k rest with
      | some v =>
        exact ⟨v, by rw [lookupLast, hll]⟩
      | none =>
        refine ⟨x.2, ?_⟩
        rw [lookupLast, hll, if_pos (by rw [← h2, hk])]
    · obtain ⟨v, hv⟩ := ih h2 hk
      exact ⟨v, by rw [lookupLast, hv]⟩

end Nlsh

namespace Nlsh

/-! ### The rendered file reloaded -/

theorem loadLineEntry_entry {kv : Str × Str} (hw : entryWF kv) :
    loadLineEntry (kv.1 ++ '=' :: kv.2)
      = if kv.1.head? = some '#' then none else some kv := by
  have h0 := loadLine_vs_writeLine (kv.1 ++ '=' :: kv.2)
  rw [writeLineEntry_entry hw.2.1 hw.2.2.1 hw.2.2.2.2] at h0
  exact h0

theorem filterMap_load_entries : ∀ {m : EnvMap}, (∀ kv ∈ m, entryWF kv) →
    m.filterMap (fun kv => loadLineEntry (kv.1 ++ '=' :: kv.2))
      = m.filter (fun kv => ! (kv.1.head? == some '#')) := by
  intro m
  induction m with
  | nil => intro _; rfl
  | cons kv rest ih =>
    intro h
    have hkv := loadLineEntry_entry (h kv (List.mem_cons_self _ _))
    have hrest := ih (fun x hx => h x (List.mem_cons_of_mem _ hx))
    by_cases hh : kv.1.head? = some '#'
    · rw [if_pos hh] at hkv
      rw [@List.filterMap_cons_none _ _
          (fun kv : Str × Str => loadLineEntry (kv.1 ++ '=' :: kv.2)) kv rest hkv,
        List.filter_cons, if_neg (by simp [hh]), hrest]
    · rw [if_neg hh] at hkv
      rw [@List.filterMap_cons_some _ _
          (fun kv : Str × Str => loadLineEntry (kv.1 ++ '=' :: kv.2)) kv rest kv hkv,
        List.filter_cons, if_pos (by simp [hh]), hrest]

theorem load_env_pairs_render {m : EnvMap} (h : envWF m) :
    load_env_pairs (renderEnv m)
      = m.filter (fun kv => ! (kv.1.head? == some '#')) := by
  obtain ⟨hs, he⟩ := h
  rw [load_env_pairs, rustLines_renderEnv
    (fun kv hkv => ⟨(he kv hkv).1, (he kv hkv).2.2.2.1, (he kv hkv).2.2.2.2⟩)]
  rw [List.filterMap_map]
  rw [show (loadLineEntry ∘ fun kv : Str × Str => kv.1 ++ '=' :: kv.2)
      = (fun kv : Str × Str => loadLineEntry (kv.1 ++ '=' :: kv.2)) from rfl]
  exact filterMap_load_entries he

theorem countP_key_of_lookup : ∀ {m : EnvMap} {k v : Str}, envSorted m →
    alLookup k m = some v → m.countP (fun kv => kv.1 == k) = 1 := by
  intro m
  induction m with
  | nil =>
    intro k v _ h
    cases h
  | cons x rest ih =>
    intro k v hs h
    rw [envSorted, List.pairwise_cons] at hs
    obtain ⟨hrel, htail⟩ := hs
    obtain ⟨k2, v2⟩ := x
    rw [List.countP_cons]
    by_cases he : k2 = k
    · have h0 : List.countP (fun kv => kv.1 == k) rest = 0 := by
        rw [List.countP_eq_zero]
        intro a ha
        have hne := ltStr_ne (hrel a ha)
        simp only [beq_iff_eq]
        intro hak
        exact hne (by
          show (k2, v2).1 = a.1
          rw [show (k2, v2).1 = k2 from rfl, he, hak])
      rw [h0, if_pos (by simp [he])]
    · rw [alLookup, if_neg he] at h
      rw [if_neg (by simp [he]), ih htail h]

theorem countP_filter_of_imp {α : Type _} {p q : α → Bool} : ∀ {l : List α},
    (∀ a ∈ l, p a = true → q a = true) → (l.filter q).countP p = l.countP p := by
  intro l
  induction l with
  | nil => intro _; rfl
  | cons a l ih =>
    intro h
    have hrest := ih (fun x hx => h x (List.mem_cons_of_mem _ hx))
    rw [List.filter_cons]
    by_cases hq : q a = true
    · rw [if_pos hq, List.countP_cons, List.countP_cons, hrest]
    · have hp : ¬ p a = true := fun hp => hq (h a (List.mem_cons_self _ _) hp)
      rw [if_neg hq, List.countP_cons, if_neg hp, hrest]
      simp

theorem renderEnv_ne_nil {m : EnvMap} (hm : m ≠ []) : renderEnv m ≠ [] := by
  cases m with
  | nil => exact absurd rfl hm
  | cons kv rest =>
    rw [renderEnv, List.map_cons, List.flatten_cons]
    simp

theorem btreeInsert_ne_nil (k v : Str) : ∀ m : EnvMap, btreeInsert k v m ≠ []
  | [] => by simp [btreeInsert]
  | (k2, v2) :: rest => by
    simp only [btreeInsert]
    split
    · simp
    · split <;> simp

theorem renderEnv_getLast : ∀ {m : EnvMap}, m ≠ [] →
    (renderEnv m).getLast? = some '\n' := by
  intro m
  induction m with
  | nil => intro hm; exact absurd rfl hm
  | cons kv rest ih =>
    intro _
    rw [renderEnv, List.map_cons, List.flatten_cons]
    by_cases h : rest = []
    · subst h
      simp only [List.map_nil, List.flatten_nil, List.append_nil]
      rw [show kv.1 ++ '=' :: kv.2 ++ ['\n'] = (kv.1 ++ '=' :: kv.2) ++ ['\n'] by
        simp]
      exact List.getLast?_concat _
    · rw [show (List.map (fun kv : Str × Str => kv.1 ++ '=' :: kv.2 ++ ['\n']) rest).flatten
          = renderEnv rest from rfl,
        List.getLast?_append_of_ne_nil _ (renderEnv_ne_nil h)]
      exact ih h

end Nlsh

namespace Nlsh

/-! ### write_env_var as a map transformation -/

theorem envWF_insert {k v : Str} {m : EnvMap} (hm : envWF m) (hk1 : '\n' ∉ k)
    (hk2 : '=' ∉ k) (hk3 : trimStr k = k) (hv1 : '\n' ∉ v)
    (hv2 : trimStr v = v) : envWF (btreeInsert k v m) := by
  constructor
  · exact btreeInsert_sorted hm.1
  · intro kv hkv
    rcases mem_btreeInsert hkv with h | h
    · rw [h]
      exact ⟨hk1, hk2, hk3, hv1, hv2⟩
    · exact hm.2 kv h

theorem write_env_var_parse {content key value : Str}
    (hk1 : '\n' ∉ key) (hk2 : '=' ∉ key) (hk3 : trimStr key = key)
    (hv1 : '\n' ∉ value) (hv2 : trimStr value = value) :
    parseEnvContent (rustLines (write_env_var (some content) key value))
      = btreeInsert key value (parseEnvContent (rustLines content)) := by
  show parseEnvContent (rustLines (renderEnv
    (btreeInsert key value (parseEnvContent (rustLines content))))) = _
  exact parseEnvContent_render
    (envWF_insert (parseEnvContent_WF content) hk1 hk2 hk3 hv1 hv2)

end Nlsh

namespace Nlsh

/-- C4: for every pre-existing configuration file content, `set("K","V1")`
then `set("K","V2")` then `load` yields exactly one value for `K`, equal to
`"V2"`; every unrelated pre-existing key keeps its loaded value; the
rewritten file has its keys in sorted order, one `KEY=VALUE` per line, and a
trailing newline. -/
theorem C4_env_store_roundtrip (content : Str) :
    let after := write_env_var
      (some (write_env_var (some content) "K".data "V1".data)) "K".data "V2".data
    ((load_env_pairs after).countP (fun kv => kv.1 == "K".data) = 1) ∧
    lookupLast "K".data (load_env_pairs after) = some "V2".data ∧
    (∀ k : Str, k ≠ "K".data →
      lookupLast k (load_env_pairs after) = lookupLast k (load_env_pairs content)) ∧
    (∀ line ∈ rustLines after, ∃ kv, splitOnceChar '=' line = some kv) ∧
    List.Pairwise (fun a b => ltStr a b = true)
      ((rustLines after).filterMap (fun l => (splitOnceChar '=' l).map Prod.fst)) ∧
    after.getLast? = some '\n' := by
  intro after
  have hWF0 : envWF (parseEnvContent (rustLines content)) := parseEnvContent_WF content
  have hp1 : parseEnvContent (rustLines (write_env_var (some content) "K".data "V1".data))
      = btreeInsert "K".data "V1".data (parseEnvContent (rustLines content)) :=
    write_env_var_parse (by decide) (by decide) (by decide) (by decide) (by decide)
  have hafter : after = renderEnv (btreeInsert "K".data "V2".data
      (btreeInsert "K".data "V1".data (parseEnvContent (rustLines content)))) := by
    show renderEnv (btreeInsert "K".data "V2".data (parseEnvContent (rustLines
      (write_env_var (some content) "K".data "V1".data)))) = _
    rw [hp1]
  have hm2WF : envWF (btreeInsert "K".data "V2".data
      (btreeInsert "K".data "V1".data (parseEnvContent (rustLines content)))) :=
    envWF_insert
      (envWF_insert hWF0 (by decide) (by decide) (by decide) (by decide) (by decide))
      (by decide) (by decide) (by decide) (by decide) (by decide)
  have hparse2 : parseEnvContent (rustLines after)
      = btreeInsert "K".data "V2".data
        (btreeInsert "K".data "V1".data (parseEnvContent (rustLines content))) := by
    rw [hafter]
    exact parseEnvContent_render hm2WF
  have hload : load_env_pairs after
      = (btreeInsert "K".data "V2".data
          (btreeInsert "K".data "V1".data
            (parseEnvContent (rustLines content)))).filter
        (fun kv => ! (kv.1.head? == some '#')) := by
    rw [hafter]
    exact load_env_pairs_render hm2WF
  refine ⟨?_, ?_, ?_, ?_, ?_, ?_⟩
  · rw [hload]
    have himp : ∀ kv ∈ btreeInsert "K".data "V2".data
        (btreeInsert "K".data "V1".data (parseEnvContent (rustLines content))),
        (kv.1 == "K".data) = true → (! (kv.1.head? == some '#')) = true := by
      intro kv _ hb
      have hkv : kv.1 = "K".data := by simpa using hb
      rw [hkv]
      decide
    rw [countP_filter_of_imp himp]
    exact countP_key_of_lookup hm2WF.1 (alLookup_insert_self _ _ _)
  · rw [lookupLast_load_eq_parse (by decide), hparse2]
    exact alLookup_insert_self _ _ _
  · intro k hk
    by_cases hh : k.head? = some '#'
    · rw [lookupLast_load_hash hh, lookupLast_load_hash hh]
    · rw [lookupLast_load_eq_parse hh, lookupLast_load_eq_parse hh, hparse2,
        alLookup_insert_other hk, alLookup_insert_other hk]
  · intro line hline
    rw [hafter, rustLines_renderEnv
      (fun kv hkv => ⟨(hm2WF.2 kv hkv).1, (hm2WF.2 kv hkv).2.2.2.1,
        (hm2WF.2 kv hkv).2.2.2.2⟩)] at hline
    rcases List.mem_map.mp hline with ⟨kv, hkv, rfl⟩
    exact ⟨(kv.1, kv.2), splitOnceChar_append (hm2WF.2 kv hkv).2.1 _⟩
  · rw [hafter, rustLines_renderEnv
      (fun kv hkv => ⟨(hm2WF.2 kv hkv).1, (hm2WF.2 kv hkv).2.2.2.1,
        (hm2WF.2 kv hkv).2.2.2.2⟩)]
    rw [List.filterMap_map]
    have hcg : List.filterMap
        ((fun l => (splitOnceChar '=' l).map Prod.fst)
          ∘ fun kv : Str × Str => kv.1 ++ '=' :: kv.2)
        (btreeInsert "K".data "V2".data
          (btreeInsert "K".data "V1".data (parseEnvContent (rustLines content))))
        = List.filterMap (some ∘ fun kv : Str × Str => kv.1)
          (btreeInsert "K".data "V2".data
            (btreeInsert "K".data "V1".data (parseEnvContent (rustLines content)))) := by
      apply List.filterMap_congr
      intro kv hkv
      show (splitOnceChar '=' (kv.1 ++ '=' :: kv.2)).map Prod.fst = some kv.1
      rw [splitOnceChar_append (hm2WF.2 kv hkv).2.1]
      rfl
    rw [hcg, List.filterMap_eq_map]
    rw [List.pairwise_map]
    exact hm2WF.1
  · rw [hafter]
    exact renderEnv_getLast (btreeInsert_ne_nil _ _ _)

/-- Witness for C4 at the concrete content `"A=1"`: the unrelated key `A`
keeps its value. -/
theorem C4_env_store_roundtrip_witness :
    lookupLast "A".data (load_env_pairs (write_env_var
      (some (write_env_var (some "A=1".data) "K".data "V1".data))
      "K".data "V2".data))
      = lookupLast "A".data (load_env_pairs "A=1".data)
    ∧ lookupLast "A".data (load_env_pairs "A=1".data) = some "1".data :=
  ⟨(C4_env_store_roundtrip "A=1".data).2.2.1 "A".data (by decide), by decide⟩

end Nlsh

namespace Nlsh

/-- C10: when `write_env_var` rewrites the file, only lines containing `'='`
survive; the parsed map at every other key is preserved (entries re-read with
key and value trimmed); lines without `'='` (comments included) are removed;
and a comment line that does contain `'='` is re-parsed as a key-value pair
(it yields an entry in the rewritten map). -/
theorem C10_rewrite_line_survival (content key value : Str)
    (hk1 : '\n' ∉ key) (hk2 : '=' ∉ key) (hk3 : trimStr key = key)
    (hv1 : '\n' ∉ value) (hv2 : trimStr value = value) :
    (∀ line ∈ rustLines (write_env_var (some content) key value), '=' ∈ line) ∧
    (∀ line : Str, '=' ∉ line →
      line ∉ rustLines (write_env_var (some content) key value)) ∧
    (∀ k : Str, k ≠ key →
      alLookup k (parseEnvContent (rustLines (write_env_var (some content) key value)))
        = alLookup k (parseEnvContent (rustLines content))) ∧
    (∀ line ∈ rustLines content, ∀ k0 v0 : Str,
      splitOnceChar '=' line = some (k0, v0) → trimStr k0 ≠ key →
      ∃ v, alLookup (trimStr k0)
        (parseEnvContent (rustLines (write_env_var (some content) key value)))
        = some v) := by
  have hWF : envWF (btreeInsert key value (parseEnvContent (rustLines content))) :=
    envWF_insert (parseEnvContent_WF content) hk1 hk2 hk3 hv1 hv2
  have hparse : parseEnvContent (rustLines (write_env_var (some content) key value))
      = btreeInsert key value (parseEnvContent (rustLines content)) :=
    write_env_var_parse hk1 hk2 hk3 hv1 hv2
  have hlines : rustLines (write_env_var (some content) key value)
      = (btreeInsert key value (parseEnvContent (rustLines content))).map
        (fun kv => kv.1 ++ '=' :: kv.2) := by
    show rustLines (renderEnv (btreeInsert key value
      (parseEnvContent (rustLines content)))) = _
    exact rustLines_renderEnv
      (fun kv hkv => ⟨(hWF.2 kv hkv).1, (hWF.2 kv hkv).2.2.2.1,
        (hWF.2 kv hkv).2.2.2.2⟩)
  have ha : ∀ line ∈ rustLines (write_env_var (some content) key value),
      '=' ∈ line := by
    intro line hline
    rw [hlines] at hline
    rcases List.mem_map.mp hline with ⟨kv, _, rfl⟩
    exact List.mem_append.mpr (Or.inr (List.mem_cons_self _ _))
  refine ⟨ha, ?_, ?_, ?_⟩
  · intro line hni hline
    exact hni (ha line hline)
  · intro k hkk
    rw [hparse, alLookup_insert_other hkk]
  · intro line hline k0 v0 hsp hne
    have hw : writeLineEntry line = some (trimStr k0, trimStr v0) := by
      rw [writeLineEntry, hsp]
      rfl
    have hmem : (trimStr k0, trimStr v0) ∈ (rustLines content).filterMap writeLineEntry :=
      List.mem_filterMap.mpr ⟨line, hline, hw⟩
    obtain ⟨v, hv⟩ := lookupLast_isSome_of_mem hmem rfl
    refine ⟨v, ?_⟩
    rw [hparse, alLookup_insert_other hne, alLookup_parseEnvContent]
    exact hv

/-- Witness for C10 at concrete content `"#A=1\nnoise\n"`: the
comment-free line `noise` does not survive, and the comment line with an
`'='` keeps its parsed entry. -/
theorem C10_rewrite_line_survival_witness :
    "noise".data ∉ rustLines (write_env_var (some "#A=1\nnoise\n".data)
      "K".data "V".data)
    ∧ alLookup "#A".data (parseEnvContent (rustLines
        (write_env_var (some "#A=1\nnoise\n".data) "K".data "V".data)))
      = alLookup "#A".data (parseEnvContent (rustLines "#A=1\nnoise\n".data)) :=
  ⟨(C10_rewrite_line_survival "#A=1\nnoise\n".data "K".data "V".data
      (by decide) (by decide) (by decide) (by decide) (by decide)).2.1
    "noise".data (by decide),
   (C10_rewrite_line_survival "#A=1\nnoise\n".data "K".data "V".data
      (by decide) (by decide) (by decide) (by decide) (by decide)).2.2.1
    "#A".data (by decide)⟩

/-- C9: the `--set-api-key` flow writes the supplied key under the credential
key of the provider that is active at call time (resolved from
`NLSH_PROVIDER`, defaulting to Gemini when unset or unrecognized, so the
same invocation persists under `GEMINI_API_KEY` or `ZAI_API_KEY` depending
on the ambient selection), and the other provider's credential key keeps its
loaded value. -/
theorem C9_set_api_key_active_provider (env : String → Option String)
    (content apiKey : Str) (h1 : '\n' ∉ apiKey) (h2 : trimStr apiKey = apiKey) :
    lookupLast (current_provider env).env_key.data
      (load_env_pairs (write_env_var (some content)
        (current_provider env).env_key.data apiKey)) = some apiKey ∧
    (∀ q : Provider, q ≠ current_provider env →
      lookupLast q.env_key.data
        (load_env_pairs (write_env_var (some content)
          (current_provider env).env_key.data apiKey))
        = lookupLast q.env_key.data (load_env_pairs content)) ∧
    (env "NLSH_PROVIDER" = none → current_provider env = Provider.Gemini) ∧
    (∀ v, env "NLSH_PROVIDER" = some v → Provider.from_str v = none →
      current_provider env = Provider.Gemini) ∧
    (env "NLSH_PROVIDER" = some "zai" → current_provider env = Provider.Zai) ∧
    Provider.Gemini.env_key = "GEMINI_API_KEY" ∧
    Provider.Zai.env_key = "ZAI_API_KEY" := by
  have hkey : ∀ q : Provider, '\n' ∉ q.env_key.data ∧ '=' ∉ q.env_key.data ∧
      trimStr q.env_key.data = q.env_key.data ∧
      q.env_key.data.head? ≠ some '#' := by
    intro q
    cases q <;> exact (by decide)
  refine ⟨?_, ?_, ?_, ?_, ?_, rfl, rfl⟩
  · obtain ⟨ha, hb, hc, hd⟩ := hkey (current_provider env)
    rw [lookupLast_load_eq_parse hd, write_env_var_parse ha hb hc h1 h2]
    exact alLookup_insert_self _ _ _
  · intro q hq
    obtain ⟨ha, hb, hc, _⟩ := hkey (current_provider env)
    have hne : q.env_key.data ≠ (current_provider env).env_key.data := by
      revert hq
      cases q <;> cases current_provider env <;> intro hq <;>
        first
        | exact absurd rfl hq
        | decide
    by_cases hh : q.env_key.data.head? = some '#'
    · rw [lookupLast_load_hash hh, lookupLast_load_hash hh]
    · rw [lookupLast_load_eq_parse hh, lookupLast_load_eq_parse hh,
        write_env_var_parse ha hb hc h1 h2, alLookup_insert_other hne]
  · intro h
    rw [current_provider, h]
  · intro v hv hn
    rw [current_provider, hv]
    show (match Provider.from_str v with
      | some provider => provider
      | none => Provider.Gemini) = Provider.Gemini
    rw [hn]
  · intro h
    rw [current_provider, h]
    decide

/-- Witness for C9: with `NLSH_PROVIDER=zai` in the environment the key is
persisted under `ZAI_API_KEY`. -/
theorem C9_set_api_key_active_provider_witness :
    lookupLast "ZAI_API_KEY".data
      (load_env_pairs (write_env_var (some "B=2".data)
        (current_provider
          (fun k => if k = "NLSH_PROVIDER" then some "zai" else none)).env_key.data
        "sek".data))
      = some "sek".data :=
  (C9_set_api_key_active_provider
    (fun k => if k = "NLSH_PROVIDER" then some "zai" else none)
    "B=2".data "sek".data (by decide) (by decide)).1

end Nlsh

namespace Nlsh

/-! ### set_shell_env lemmas -/

theorem trimStart_eq_self_of_head {l : Str}
    (h : ∀ c, l.head? = some c → rustIsWhitespace c = false) : trimStart l = l := by
  cases l with
  | nil => rfl
  | cons c t =>
    rw [trimStart, List.dropWhile_cons, if_neg (by simp [h c rfl])]

theorem exportLine_no_newline {key value : Str} (hk : '\n' ∉ key)
    (hv : '\n' ∉ value) : '\n' ∉ exportLine key value := by
  intro h
  rw [exportLine, exportPat] at h
  simp at h
  rcases h with h | h
  · exact hk h
  · exact hv h

theorem exportLine_no_cr {key value : Str} (hk : '\r' ∉ key)
    (hv : '\r' ∉ value) : '\r' ∉ exportLine key value := by
  intro h
  rw [exportLine, exportPat] at h
  simp at h
  rcases h with h | h
  · exact hk h
  · exact hv h

theorem exportLine_getLast (key value : Str) :
    (exportLine key value).getLast? = some '\"' := by
  rw [exportLine]
  rw [show exportPat key ++ '\"' :: (value ++ ['\"'])
      = (exportPat key ++ '\"' :: value) ++ ['\"'] by simp]
  exact List.getLast?_concat _

theorem exportLine_matches (key value : Str) :
    (exportPat key).isPrefixOf (trimStart (exportLine key value)) = true := by
  have h1 : trimStart (exportLine key value) = exportLine key value := by
    apply trimStart_eq_self_of_head
    intro c hc
    rw [show (exportLine key value).head? = some 'e' from rfl] at hc
    injection hc with hc
    rw [← hc]
    decide
  rw [h1, exportLine]
  exact List.isPrefixOf_iff_prefix.mpr ⟨_, rfl⟩

theorem exportLine_inj {key value value2 : Str}
    (h : exportLine key value = exportLine key value2) : value = value2 := by
  rw [exportLine, exportLine] at h
  have h2 := List.append_cancel_left h
  injection h2 with _ h3
  exact List.append_cancel_right h3

theorem getLast?_ne_of_not_mem {α : Type _} {l : List α} {x : α} (h : x ∉ l) :
    l.getLast? ≠ some x :=
  fun he => h (mem_of_getLast?_eq he)

theorem set_shell_lines {c key value : Str} (hc : '\r' ∉ c) (hk : '\n' ∉ key)
    (hv : '\n' ∉ value) :
    rustLines (set_shell_env_file (some c) key value)
      = (rustLines c).filter (fun l => ! (exportPat key).isPrefixOf (trimStart l))
        ++ [exportLine key value] := by
  have hflat : set_shell_env_file (some c) key value
      = ((((rustLines c).filter
            (fun l => ! (exportPat key).isPrefixOf (trimStart l)))
          ++ [exportLine key value]).map (fun l => l ++ ['\n'])).flatten := by
    rw [List.map_append, List.flatten_append]
    show _ ++ exportLine key value ++ ['\n'] = _
    simp
  rw [hflat, rustLines_flatten ?hnl]
  case hnl =>
    intro l hl
    rcases List.mem_append.mp hl with hm | hm
    · exact mem_rustLines_no_newline (List.mem_filter.mp hm).1
    · rw [List.mem_singleton.mp hm]
      exact exportLine_no_newline hk hv
  have h2 : ∀ l ∈ ((rustLines c).filter
      (fun l => ! (exportPat key).isPrefixOf (trimStart l)))
      ++ [exportLine key value], stripCR l = l := by
    intro l hl
    rcases List.mem_append.mp hl with hm | hm
    · apply stripCR_eq_self
      apply getLast?_ne_of_not_mem
      intro hmem
      exact hc (mem_rustLines_mem (List.mem_filter.mp hm).1 hmem)
    · rw [List.mem_singleton.mp hm]
      apply stripCR_eq_self
      rw [exportLine_getLast]
      intro he
      cases he
  rw [List.map_congr_left h2]
  simp

end Nlsh

namespace Nlsh

theorem set_shell_no_cr {c key value : Str} (hc : '\r' ∉ c) (hk : '\r' ∉ key)
    (hv : '\r' ∉ value) : '\r' ∉ set_shell_env_file (some c) key value := by
  intro h
  rcases List.mem_append.mp h with h1 | h1
  · rcases List.mem_append.mp h1 with h2 | h2
    · rcases List.mem_flatten.mp h2 with ⟨piece, hp, hmem⟩
      rcases List.mem_map.mp hp with ⟨l, hl, rfl⟩
      rcases List.mem_append.mp hmem with h3 | h3
      · exact hc (mem_rustLines_mem (List.mem_filter.mp hl).1 h3)
      · simp at h3
    · exact exportLine_no_cr hk hv h2
  · simp at h1

/-- C5 counterexample: on the pre-existing content `"a\r\r\n"` (whose single
line, under Rust `lines`, is `"a\r"`), calling the mirror twice does not
leave the other line intact: the line `"a\r"` is gone from the final file
and the second call changed the file again. -/
theorem C5_mirror_counterexample :
    "a\r".data ∈ rustLines "a\r\r\n".data ∧
    "a\r".data ∉ rustLines (set_shell_env_file
      (some (set_shell_env_file (some "a\r\r\n".data) "K".data "V".data))
      "K".data "V".data) ∧
    set_shell_env_file
      (some (set_shell_env_file (some "a\r\r\n".data) "K".data "V".data))
      "K".data "V".data
      ≠ set_shell_env_file (some "a\r\r\n".data) "K".data "V".data := by
  decide

/-- C5 (amended to contents without carriage returns): mirroring is
idempotent — the second identical call returns the file unchanged; the file
holds exactly one `export KEY="VALUE"` line, at the end; all other lines are
preserved verbatim; and a call with a new value replaces the single export
line rather than adding one. -/
theorem C5_mirror_idempotent (content key value value2 : Str)
    (hc : '\r' ∉ content) (hk1 : '\n' ∉ key) (hk2 : '\r' ∉ key)
    (hv1 : '\n' ∉ value) (hv2 : '\r' ∉ value) (hw1 : '\n' ∉ value2) :
    (set_shell_env_file (some (set_shell_env_file (some content) key value))
        key value
      = set_shell_env_file (some content) key value) ∧
    ((rustLines (set_shell_env_file (some content) key value)).countP
      (fun l => l == exportLine key value) = 1) ∧
    ((rustLines (set_shell_env_file (some content) key value)).getLast?
      = some (exportLine key value)) ∧
    ((rustLines (set_shell_env_file (some content) key value)).filter
        (fun l => ! (exportPat key).isPrefixOf (trimStart l))
      = (rustLines content).filter
        (fun l => ! (exportPat key).isPrefixOf (trimStart l))) ∧
    (rustLines (set_shell_env_file
        (some (set_shell_env_file (some content) key value)) key value2)
      = (rustLines content).filter
          (fun l => ! (exportPat key).isPrefixOf (trimStart l))
        ++ [exportLine key value2]) ∧
    (value2 ≠ value →
      exportLine key value ∉ rustLines (set_shell_env_file
        (some (set_shell_env_file (some content) key value)) key value2)) := by
  have hkept := @set_shell_lines content key value hc hk1 hv1
  have hf1cr : '\r' ∉ set_shell_env_file (some content) key value :=
    set_shell_no_cr hc hk2 hv2
  have hfilter : (rustLines (set_shell_env_file (some content) key value)).filter
      (fun l => ! (exportPat key).isPrefixOf (trimStart l))
      = (rustLines content).filter
        (fun l => ! (exportPat key).isPrefixOf (trimStart l)) := by
    rw [hkept, List.filter_append]
    have hA : ((rustLines content).filter
        (fun l => ! (exportPat key).isPrefixOf (trimStart l))).filter
        (fun l => ! (exportPat key).isPrefixOf (trimStart l))
        = (rustLines content).filter
          (fun l => ! (exportPat key).isPrefixOf (trimStart l)) :=
      List.filter_eq_self.mpr (fun a ha => (List.mem_filter.mp ha).2)
    have hB : [exportLine key value].filter
        (fun l => ! (exportPat key).isPrefixOf (trimStart l)) = [] := by
      rw [List.filter_cons, if_neg (by simp [exportLine_matches])]
      rfl
    rw [hA, hB, List.append_nil]
  refine ⟨?_, ?_, ?_, hfilter, ?_, ?_⟩
  · show ((((rustLines (set_shell_env_file (some content) key value)).filter
        (fun l => ! (exportPat key).isPrefixOf (trimStart l))).map
        (fun l => l ++ ['\n'])).flatten) ++ exportLine key value ++ ['\n']
      = (((rustLines content).filter
        (fun l => ! (exportPat key).isPrefixOf (trimStart l))).map
        (fun l => l ++ ['\n'])).flatten ++ exportLine key value ++ ['\n']
    rw [hfilter]
  · rw [hkept, List.countP_append]
    have h0 : ((rustLines content).filter
        (fun l => ! (exportPat key).isPrefixOf (trimStart l))).countP
        (fun l => l == exportLine key value) = 0 := by
      rw [List.countP_eq_zero]
      intro a ha hbeq
      have hae : a = exportLine key value := by simpa using hbeq
      have hpa := (List.mem_filter.mp ha).2
      rw [hae] at hpa
      simp [exportLine_matches] at hpa
    rw [h0]
    simp
  · rw [hkept]
    exact List.getLast?_concat _
  · rw [set_shell_lines hf1cr hk1 hw1, hfilter]
  · intro hne12 hmem
    rw [set_shell_lines hf1cr hk1 hw1, hfilter] at hmem
    rcases List.mem_append.mp hmem with h1 | h1
    · have hp := (List.mem_filter.mp h1).2
      simp [exportLine_matches] at hp
    · exact hne12 (exportLine_inj (List.mem_singleton.mp h1)).symm

/-- Witness for C5 at concrete content, key and values. -/
theorem C5_mirror_idempotent_witness :
    set_shell_env_file
      (some (set_shell_env_file (some "x\nexport K=\"old\"\ny".data)
        "K".data "V".data)) "K".data "V".data
      = set_shell_env_file (some "x\nexport K=\"old\"\ny".data)
        "K".data "V".data :=
  (C5_mirror_idempotent "x\nexport K=\"old\"\ny".data "K".data "V".data
    "W".data (by decide) (by decide) (by decide) (by decide) (by decide)
    (by decide)).1

end Nlsh

namespace Nlsh

/-- C1: the confirmation phase restores the terminal on both success paths
(Enter and Esc), but on the failing input — `event::read()` returning an
error — `confirmPhase` returns with raw mode still enabled, because
`event::read()?` propagates out of `main` before
`terminal::disable_raw_mode()` is reached.  This contradicts the claim that
restoration happens on every exit path including the error path. -/
theorem C1_confirm_error_skips_restore :
    confirmPhase [TermEvent.readError] = some ⟨Except.error (), true⟩ ∧
    confirmPhase [TermEvent.key KeyCode.enter]
      = some ⟨Except.ok (some ()), false⟩ ∧
    confirmPhase [TermEvent.key KeyCode.esc] = some ⟨Except.ok none, false⟩ ∧
    confirmPhase [TermEvent.key KeyCode.other, TermEvent.nonKey,
      TermEvent.readError] = some ⟨Except.error (), true⟩ :=
  ⟨rfl, rfl, rfl, rfl⟩

/-- Unfolding equation for `ensure_api_key`. -/
theorem ensure_api_key_eq (env : String → Option String) (p : Provider) :
    ensure_api_key env p =
      match env p.env_key with
      | some value =>
        if trimS value = "" then Except.error (missing_key_message p.env_key)
        else Except.ok value
      | none => Except.error (missing_key_message p.env_key) := rfl

/-- C2 counterexample: with `GEMINI_API_KEY` set to `" abc "`,
`ensure_api_key` succeeds with the untrimmed value `" abc "`, not the
trimmed `"abc"` the claim requires. -/
theorem C2_counterexample_untrimmed :
    ensure_api_key
      (fun k => if k = "GEMINI_API_KEY" then some " abc " else none)
      Provider.Gemini = Except.ok " abc "
    ∧ trimS " abc " = "abc" ∧ (" abc " : String) ≠ "abc" :=
  ⟨rfl, by decide, by decide⟩

/-- C2 (amended): `ensure_api_key` fails with a message naming the
provider's specific credential key when that key is absent or
whitespace-only, and otherwise succeeds returning the value exactly as read
from the environment (untrimmed; trimming is used only for the blankness
test). -/
theorem C2_missing_credential (env : String → Option String) (p : Provider) :
    (∀ v, env p.env_key = some v → trimS v ≠ "" →
      ensure_api_key env p = Except.ok v) ∧
    (env p.env_key = none →
      ensure_api_key env p = Except.error (missing_key_message p.env_key)) ∧
    (∀ v, env p.env_key = some v → trimS v = "" →
      ensure_api_key env p = Except.error (missing_key_message p.env_key)) ∧
    (∃ pre post : String,
      missing_key_message p.env_key = pre ++ p.env_key ++ post) := by
  refine ⟨?_, ?_, ?_,
    ⟨"Missing ", ". Set one via `nlsh --set-api-key`.", rfl⟩⟩
  · intro v hv hne
    rw [ensure_api_key_eq, hv]
    show (if trimS v = "" then Except.error (missing_key_message p.env_key)
      else Except.ok v) = Except.ok v
    rw [if_neg hne]
  · intro h
    rw [ensure_api_key_eq, h]
  · intro v hv he
    rw [ensure_api_key_eq, hv]
    show (if trimS v = "" then Except.error (missing_key_message p.env_key)
      else Except.ok v) = Except.error (missing_key_message p.env_key)
    rw [if_pos he]

/-- Witness for C2 at a concrete environment. -/
theorem C2_missing_credential_witness :
    ensure_api_key (fun k => if k = "GEMINI_API_KEY" then some "abc" else none)
      Provider.Gemini = Except.ok "abc" :=
  (C2_missing_credential
    (fun k => if k = "GEMINI_API_KEY" then some "abc" else none)
    Provider.Gemini).1 "abc" (by decide) (by decide)

/-- C3: the Gemini fixture with text `" ls -la "` yields the trimmed
`"ls -la"`; any body where the `candidates[0].content.parts[0].text` path is
absent fails with the malformed-response message; z.ai extraction tries
`choices[0].message.content`, then `choices[0].text`, then
`choices[0].content` in that order, trims the result, and when none match
fails with an error embedding the HTTP status. -/
theorem C3_response_parsing :
    gemini_extract geminiFixture = Except.ok "ls -la" ∧
    (∀ v : Json, geminiTextPath v = none →
      gemini_extract v = Except.error "Gemini response missing content") ∧
    (∀ (choice : Json) (status s : String), msgContent choice = some s →
      zai_extract (Json.obj [("choices", Json.arr [choice])]) status
        = Except.ok (trimS s)) ∧
    (∀ (choice : Json) (status s : String), msgContent choice = none →
      textContent choice = some s →
      zai_extract (Json.obj [("choices", Json.arr [choice])]) status
        = Except.ok (trimS s)) ∧
    (∀ (choice : Json) (status s : String), msgContent choice = none →
      textContent choice = none → contContent choice = some s →
      zai_extract (Json.obj [("choices", Json.arr [choice])]) status
        = Except.ok (trimS s)) ∧
    (∀ (v : Json) (status : String), zaiTextPath v = none →
      zai_extract v status
        = Except.error ("z.ai response missing content (status: "
            ++ status ++ ")")) := by
  refine ⟨rfl, ?_, ?_, ?_, ?_, ?_⟩
  · intro v h
    rw [gemini_extract, h]
  · intro choice status s h
    have hz : zaiTextPath (Json.obj [("choices", Json.arr [choice])]) = some s := by
      show choiceText choice = some s
      rw [choiceText, h]
      rfl
    rw [zai_extract, hz]
  · intro choice status s h1 h2
    have hz : zaiTextPath (Json.obj [("choices", Json.arr [choice])]) = some s := by
      show choiceText choice = some s
      rw [choiceText, h1]
      show (textContent choice).orElse (fun _ => contContent choice) = some s
      rw [h2]
      rfl
    rw [zai_extract, hz]
  · intro choice status s h1 h2 h3
    have hz : zaiTextPath (Json.obj [("choices", Json.arr [choice])]) = some s := by
      show choiceText choice = some s
      rw [choiceText, h1]
      show (textContent choice).orElse (fun _ => contContent choice) = some s
      rw [h2]
      show contContent choice = some s
      exact h3
    rw [zai_extract, hz]
  · intro v status h
    rw [zai_extract, h]

/-- Witness for C3: a z.ai body whose `choices[0].message.content` is
`"echo hi"`. -/
theorem C3_response_parsing_witness :
    zai_extract (Json.obj [("choices", Json.arr [Json.obj [("message",
        Json.obj [("content", Json.str "echo hi")])]])]) "200 OK"
      = Except.ok (trimS "echo hi")
    ∧ trimS "echo hi" = "echo hi" :=
  ⟨C3_response_parsing.2.2.1
    (Json.obj [("message", Json.obj [("content", Json.str "echo hi")])])
    "200 OK" "echo hi" rfl, by decide⟩

/-- C6: provider resolution is total — unset or unrecognized
`NLSH_PROVIDER` resolves to Gemini — and `"zai"`, `"z.ai"`, `"z-ai"`
compared case-insensitively (any string lowercasing to one of them) all
resolve to Zai. -/
theorem C6_provider_resolution (env : String → Option String) :
    current_provider (fun _ => none) = Provider.Gemini ∧
    (env "NLSH_PROVIDER" = none → current_provider env = Provider.Gemini) ∧
    (∀ v, env "NLSH_PROVIDER" = some v → Provider.from_str v = none →
      current_provider env = Provider.Gemini) ∧
    (∀ s, strToLower s = "zai" ∨ strToLower s = "z.ai" ∨ strToLower s = "z-ai" →
      Provider.from_str s = some Provider.Zai) ∧
    (∀ v, env "NLSH_PROVIDER" = some v →
      Provider.from_str v = some Provider.Zai →
      current_provider env = Provider.Zai) := by
  refine ⟨rfl, ?_, ?_, ?_, ?_⟩
  · intro h
    rw [current_provider, h]
  · intro v hv hn
    rw [current_provider, hv]
    show (match Provider.from_str v with
      | some provider => provider
      | none => Provider.Gemini) = Provider.Gemini
    rw [hn]
  · intro s h
    show (if strToLower s = "gemini" ∨ strToLower s = "google"
        then some Provider.Gemini
      else if strToLower s = "zai" ∨ strToLower s = "z.ai"
          ∨ strToLower s = "z-ai" then some Provider.Zai
      else none) = some Provider.Zai
    have h1 : ¬ (strToLower s = "gemini" ∨ strToLower s = "google") := by
      rcases h with h | h | h <;> rw [h] <;> decide
    rw [if_neg h1, if_pos h]
  · intro v hv hz
    rw [current_provider, hv]
    show (match Provider.from_str v with
      | some provider => provider
      | none => Provider.Gemini) = Provider.Zai
    rw [hz]

/-- Witness for C6 at concrete strings. -/
theorem C6_provider_resolution_witness :
    Provider.from_str "Z.AI" = some Provider.Zai ∧
    current_provider
      (fun k => if k = "NLSH_PROVIDER" then some "bogus" else none)
      = Provider.Gemini :=
  ⟨(C6_provider_resolution (fun _ => none)).2.2.2.1 "Z.AI" (by decide),
   (C6_provider_resolution
      (fun k => if k = "NLSH_PROVIDER" then some "bogus" else none)).2.2.1
    "bogus" (by decide) (by decide)⟩

/-- C7: `run_command` spawns `sh -c <command>` with the command string passed
unmodified as the single command-string argument and all three standard
streams inherited; on wait it returns the child's exit code, or 1 when the
child terminated without a code (e.g. by signal); a child exiting 7 (as `sh
-c "exit 7"` does) yields 7. -/
theorem C7_run_command (command : String) :
    (run_command_spawn command).program = "sh" ∧
    (run_command_spawn command).args = ["-c", command] ∧
    (run_command_spawn command).stdinInherit = true ∧
    (run_command_spawn command).stdoutInherit = true ∧
    (run_command_spawn command).stderrInherit = true ∧
    (∀ code : Int, run_command_exit (some code) = code) ∧
    run_command_exit none = 1 ∧
    run_command_exit (some 7) = 7 :=
  ⟨rfl, rfl, rfl, rfl, rfl, fun _ => rfl, rfl, rfl⟩

/-- C8 counterexample: with user input made of three backticks, the built
prompt contains markdown fencing, so the output does not "never contain
markdown fencing". -/
theorem C8_fencing_counterexample :
    containsStr (build_prompt "```" "/tmp") "```" := by
  refine ⟨promptHeader ++ "/tmp" ++ promptRules, "", ?_⟩
  rw [String.append_empty]
  rfl

/-- C8 (amended): the prompt builder is deterministic and its output
contains the user input and the working directory verbatim; and whenever
neither contains a backtick, the output contains no markdown fencing (the
fixed template is backtick-free). -/
theorem C8_prompt_builder (u c : String) :
    build_prompt u c = build_prompt u c ∧
    containsStr (build_prompt u c) u ∧
    containsStr (build_prompt u c) c ∧
    (Char.ofNat 96 ∉ u.data → Char.ofNat 96 ∉ c.data →
      ¬ containsStr (build_prompt u c) "```") := by
  refine ⟨rfl, ?_, ?_, ?_⟩
  · refine ⟨promptHeader ++ c ++ promptRules, "", ?_⟩
    rw [String.append_empty]
    rfl
  · refine ⟨promptHeader, promptRules ++ u, ?_⟩
    exact String.append_assoc (promptHeader ++ c) promptRules u
  · intro hu hc hcon
    obtain ⟨pre, post, he⟩ := hcon
    have hmem : Char.ofNat 96 ∈ (build_prompt u c).data := by
      rw [he, String.data_append, String.data_append]
      apply List.mem_append.mpr
      apply Or.inl
      apply List.mem_append.mpr
      apply Or.inr
      decide
    rw [show (build_prompt u c).data
        = ((promptHeader.data ++ c.data) ++ promptRules.data) ++ u.data from by
      rw [build_prompt, String.data_append, String.data_append,
        String.data_append]] at hmem
    rcases List.mem_append.mp hmem with h1 | h1
    · rcases List.mem_append.mp h1 with h2 | h2
      · rcases List.mem_append.mp h2 with h3 | h3
        · exact absurd h3 (by decide)
        · exact hc h3
      · exact absurd h2 (by decide)
    · exact hu h1

/-- Witness for C8: a backtick-free input and directory give a fencing-free
prompt. -/
theorem C8_prompt_builder_witness :
    ¬ containsStr (build_prompt "list files" "/tmp") "```" :=
  (C8_prompt_builder "list files" "/tmp").2.2.2 (by decide) (by decide)

end Nlsh
